import Mathlib

/-!
# A chained hash map from `int` to `int` (`src/main.c`)

Shallow embedding of the hash map of `src/main.c` and proofs about it.  The program is embedded
at two levels.

## The table as a value

* A `Bucket` is a slot head (`key`, `value`) together with the linked list of heap nodes hanging
  off its `next` pointer; a null-terminated singly linked list is a `List (Int × Int)`.
* A `HashMap` is the bucket array, `bucket_count` and `used_buckets`.  The array length is kept
  apart from `bucket_count`, as in C; indexing outside the array is a `Fault`.
* `put` and `rehash` call each other in the source.  The embedding carries a fuel counter that
  bounds the nesting depth of `put` inside `rehash` inside `put` ...; running out of fuel,
  indexing outside the bucket array and `% 0` are reported as `Fault`s.  Results are shown to be
  independent of the fuel, and to exist once the fuel exceeds the number of stored entries.
* The arithmetic on C `int`s is `key % size` (truncating, `Int.tmod`),
  `bucket_count * growth_factor` and `used_buckets++`.  `put`, `rehash` and `get` compute on
  unbounded `Int`s.  `put32` and `rehash32` are `put` and `rehash` with the product and the
  increment computed in the 32-bit `int`: a result outside `INT_MIN .. INT_MAX` is the fault
  `intOverflow`.  On well-formed tables the two agree as long as the slot count of the result
  is at most `INT_MAX` (`put32_ok`, `put32_of_le`); a direct call of `rehash` with a large
  growth factor is where they differ on a small table.

## The table in the heap

* `Heap` holds the allocated blocks by address.  `hnew_hashmap`, `hput`, `hrehashWith` and
  `free_hashmap` are the functions of the source on it: they allocate, read, write and release
  blocks.  A bucket array is a block of `Bucket`s; a chain node is a block of the size `put`
  asks `malloc` for, accessed through a `Bucket *`.
* A field access outside its block, an access to a block that is not allocated and a release of
  a block that is not allocated are `MemFault`s.
* The allocator is a parameter `usable`: the number of bytes of the block it returns for a
  request that the program may access (`exactSize`: as many as asked for; `paddedSize`: at least
  24).  Addresses are never handed out twice.

Not modelled: allocation failure, the `printf` of `put`, and the rounding of the load check to
single precision (see `SHOULD_MAP_EXPAND`).
-/

namespace HashMapC

/-- Ways in which an operation can fail to produce a result: the fuel runs out, an index leaves
the bucket array, `% 0`, or (in `put32` and `rehash32` only) an `int` overflows. -/
inductive Fault where
  | outOfFuel
  | outOfBounds
  | divByZero
  | intOverflow
  deriving DecidableEq, Repr

/-- Source: `#define INITIAL_MAP_SIZE 10`. -/
def INITIAL_MAP_SIZE : Int := 10

/-- Source: `#define GROWTH_FACTOR 2`. -/
def GROWTH_FACTOR : Int := 2

/-- Source: `#define NO_VALUE -1`. -/
def NO_VALUE : Int := -1

/-- Source: `#define SHOULD_MAP_EXPAND(used, total) (float)used / total >= LOAD_FACTOR` with
`LOAD_FACTOR` = 0.75.  The quotient is compared in exact arithmetic: for `total > 0` it is
`3 * total ≤ 4 * used`.  (Single precision agrees with the exact comparison whenever
`0 < total < 2^23`: the quotient then differs from 0.75 by more than half an ulp or not at all.)
For `total < 0` the inequality flips, and for `total = 0` the quotient is `+inf`, `NaN` or `-inf`,
of which only `+inf` compares `>= 0.75`. -/
def SHOULD_MAP_EXPAND (used total : Int) : Bool :=
  if 0 < total then decide (3 * total ≤ 4 * used)
  else if total < 0 then decide (4 * used ≤ 3 * total)
  else decide (0 < used)

/-- Source: `#define HASH(key, size) (key % size)`; C's `%` truncates towards zero. -/
def HASH (key size : Int) : Int := Int.tmod key size

/-- Source: `struct BUCKET_T`: the slot head and the chain of nodes reached through `next`. -/
structure Bucket where
  key : Int
  value : Int
  next : List (Int × Int)
  deriving DecidableEq, Repr

/-- Source: `HashMap`. -/
structure HashMap where
  buckets : List Bucket
  bucket_count : Int
  used_buckets : Int
  deriving DecidableEq, Repr

/-- The bucket written by `ZERO_HASHMAP`: `{.key = NO_VALUE, .value = NO_VALUE, .next = NULL}`. -/
def emptyBucket : Bucket := ⟨NO_VALUE, NO_VALUE, []⟩

/-- Source: `calloc(n, sizeof(Bucket))` followed by `ZERO_HASHMAP`: `n` empty buckets. -/
def zeroedBuckets (n : Int) : List Bucket := List.replicate n.toNat emptyBucket

/-- Source: `new_hashmap`. -/
def new_hashmap : HashMap :=
  { buckets := zeroedBuckets INITIAL_MAP_SIZE
    bucket_count := INITIAL_MAP_SIZE
    used_buckets := 0 }

/-- The array access `map.buckets[hash]`: defined only inside the allocated array. -/
def bucketAt (map : HashMap) (hash : Int) : Option Bucket :=
  if 0 ≤ hash then map.buckets[hash.toNat]? else none

/-- The tail walk of `put` (lines 114-128): follow `next` to the last node and link a new node
`(key, value)` after it. -/
def appendNode : List (Int × Int) → Int → Int → List (Int × Int)
  | [], key, value => [(key, value)]
  | node :: rest, key, value => node :: appendNode rest key value

/-- Lines 109-129 of `put`: the insertion proper, after the growth check, on the table as a
value: the node of the occupied branch is the new last element of the chain.  The block that
line 120 allocates for it and the writes of lines 121-123 into that block are in `hputBucket`
and `newNode`. -/
def putBucket (map : HashMap) (key value : Int) : Except Fault HashMap :=
  if map.bucket_count = 0 then .error .divByZero
  else
    let hash := HASH key map.bucket_count
    match bucketAt map hash with
    | none => .error .outOfBounds
    | some b =>
      if b.key = NO_VALUE then
        .ok { map with
              buckets := map.buckets.set hash.toNat ⟨key, value, []⟩
              used_buckets := map.used_buckets + 1 }
      else
        .ok { map with
              buckets := map.buckets.set hash.toNat { b with next := appendNode b.next key value } }

/-- The inner `while (bucket != NULL)` loop of `rehash`: replay a chain, head first, through
`put`. -/
def replayChain (put : HashMap → Int → Int → Except Fault HashMap) :
    List (Int × Int) → HashMap → Except Fault HashMap
  | [], new_map => .ok new_map
  | (key, value) :: rest, new_map =>
    match put new_map key value with
    | .error e => .error e
    | .ok new_map => replayChain put rest new_map

/-- The `for` loop of `rehash` over the buckets of the old table: non-empty slots are replayed
from their head, empty ones are skipped. -/
def replayBuckets (put : HashMap → Int → Int → Except Fault HashMap) :
    List Bucket → HashMap → Except Fault HashMap
  | [], new_map => .ok new_map
  | b :: rest, new_map =>
    if b.key ≠ NO_VALUE then
      match replayChain put ((b.key, b.value) :: b.next) new_map with
      | .error e => .error e
      | .ok new_map => replayBuckets put rest new_map
    else replayBuckets put rest new_map

/-- Source: `rehash`, with the `put` it calls as a parameter.  The loop reads
`map.buckets[0 .. bucket_count)`, which must lie inside the array.  The product
`map.bucket_count * growth_factor` is the integer product here; `rehashWith32` is this function
with the product checked against the range of `int`. -/
def rehashWith (put : HashMap → Int → Int → Except Fault HashMap) (map : HashMap)
    (growth_factor : Int) : Except Fault HashMap :=
  let new_map : HashMap :=
    { buckets := zeroedBuckets (map.bucket_count * growth_factor)
      bucket_count := map.bucket_count * growth_factor
      used_buckets := 0 }
  if map.bucket_count.toNat ≤ map.buckets.length then
    replayBuckets put (map.buckets.take map.bucket_count.toNat) new_map
  else .error .outOfBounds

/-- Source: `put`.  The fuel bounds how deeply `put` and `rehash` may nest. -/
def put : Nat → HashMap → Int → Int → Except Fault HashMap
  | 0, _, _, _ => .error .outOfFuel
  | fuel + 1, map, key, value =>
    if SHOULD_MAP_EXPAND map.used_buckets map.bucket_count then
      match rehashWith (put fuel) map GROWTH_FACTOR with
      | .error e => .error e
      | .ok map => putBucket map key value
    else putBucket map key value

/-- Source: `rehash`; the replay runs through `put` with the given fuel. -/
def rehash (fuel : Nat) (map : HashMap) (growth_factor : Int) : Except Fault HashMap :=
  rehashWith (put fuel) map growth_factor

/-- The `while (current != NULL)` loop of `get`: the value of the first entry whose key matches,
`NO_VALUE` when the chain is exhausted. -/
def walk : List (Int × Int) → Int → Int
  | [], _ => NO_VALUE
  | (k, v) :: rest, key => if k = key then v else walk rest key

/-- Source: `get`. -/
def get (map : HashMap) (key : Int) : Except Fault Int :=
  if map.bucket_count = 0 then .error .divByZero
  else
    let hash := HASH key map.bucket_count
    match bucketAt map hash with
    | none => .error .outOfBounds
    | some b =>
      if b.key = NO_VALUE then .ok NO_VALUE
      else .ok (walk ((b.key, b.value) :: b.next) key)

/-- A sequence of `put` calls, in order, each with the given fuel. -/
def putAll (fuel : Nat) : HashMap → List (Int × Int) → Except Fault HashMap
  | map, [] => .ok map
  | map, (key, value) :: rest =>
    match put fuel map key value with
    | .error e => .error e
    | .ok map => putAll fuel map rest

/-- The test sequence of `main`: `put(i, 2 * i)` for `i = 0 .. 99`. -/
def mainPuts : List (Int × Int) :=
  (List.range 100).map (fun (i : Nat) => ((i : Int), 2 * (i : Int)))

/-- The entries a slot holds, head first: none when the head key is `NO_VALUE`. -/
def chainOf (b : Bucket) : List (Int × Int) :=
  if b.key = NO_VALUE then [] else (b.key, b.value) :: b.next

/-- All entries of the table, in slot order and chain order: the order in which `rehash` replays
them. -/
def entries (map : HashMap) : List (Int × Int) := (map.buckets.map chainOf).flatten

/-- The value of the first entry of a chain with the given key, if any. -/
def firstValue : List (Int × Int) → Int → Option Int
  | [], _ => none
  | (k, v) :: rest, key => if k = key then some v else firstValue rest key

/-- The stored value that a lookup of `key` finds, if any: the first match in the chain of the
slot `HASH key bucket_count`. -/
def find? (map : HashMap) (key : Int) : Option Int :=
  match bucketAt map (HASH key map.bucket_count) with
  | none => none
  | some b => firstValue (chainOf b) key

/-- Number of slots whose head is not `NO_VALUE`. -/
def occupied (bs : List Bucket) : Nat := bs.countP (fun b => decide (b.key ≠ NO_VALUE))

/-- Representation invariant of a table: a positive number of slots, as many as `bucket_count`
says, and every stored entry has a non-negative key and lives in the slot its key hashes to. -/
structure WF (map : HashMap) : Prop where
  pos : 0 < map.bucket_count
  size : (map.buckets.length : Int) = map.bucket_count
  placed : ∀ (i : Nat) (b : Bucket), map.buckets[i]? = some b →
    ∀ p ∈ chainOf b, 0 ≤ p.1 ∧ HASH p.1 map.bucket_count = (i : Int)

/-- The occupancy counter is exact. -/
def UsedOK (map : HashMap) : Prop := map.used_buckets = (occupied map.buckets : Int)

/-- Tables that `put` calls with non-negative keys can build from `new_hashmap()`. -/
inductive Reachable : HashMap → Prop
  | new : Reachable new_hashmap
  | put {map map' : HashMap} {fuel : Nat} {key value : Int} :
      Reachable map → 0 ≤ key → put fuel map key value = .ok map' → Reachable map'

/-- The table `rehash` starts its replay from: `n` empty slots, nothing used. -/
def freshMap (n : Int) : HashMap :=
  { buckets := zeroedBuckets n, bucket_count := n, used_buckets := 0 }

/-- What a `put` that returns `map'` has established. -/
structure PutPost (map : HashMap) (k v : Int) (map' : HashMap) : Prop where
  wf : WF map'
  perm : (entries map').Perm (entries map ++ [(k, v)])
  find : ∀ k', 0 ≤ k' →
    find? map' k' = (find? map k').orElse (fun _ => firstValue [(k, v)] k')
  used : UsedOK map ∨ SHOULD_MAP_EXPAND map.used_buckets map.bucket_count = true → UsedOK map'
  count : ∃ j : Nat, map'.bucket_count = map.bucket_count * 2 ^ j

/-- With fuel above the number of stored entries, `put` with this fuel returns on every
well-formed table and establishes `PutPost`. -/
def PutSpec (fuel : Nat) : Prop :=
  ∀ (map : HashMap) (k v : Int), WF map → 0 ≤ k → (entries map).length < fuel →
    ∃ map', put fuel map k v = .ok map' ∧ PutPost map k v map'

/-- The table that a sequence of puts builds from `new_hashmap()`. -/
def tableOf (kvs : List (Int × Int)) : HashMap :=
  match putAll kvs.length new_hashmap kvs with
  | .ok map => map
  | .error _ => new_hashmap

/-- Sixteen puts with distinct non-negative keys that fill 8 of the 10 initial slots: slots 1
to 6 hold two entries each (`i` and `i + 10`), slot 7 holds 7, 17 and 27, and slot 0, filled
last, holds 0.  In a table of 20 slots the first fifteen of them occupy fifteen different
slots. -/
def nestedGrowthPuts : List (Int × Int) :=
  [(1, 0), (2, 0), (3, 0), (4, 0), (5, 0), (6, 0), (11, 0), (12, 0), (13, 0), (14, 0), (15, 0),
   (16, 0), (7, 0), (17, 0), (27, 0), (0, 0)]

/-- Slot count and occupancy counter of a result. -/
def counts (r : Except Fault HashMap) : Option (Int × Int) :=
  match r with
  | .ok map => some (map.bucket_count, map.used_buckets)
  | .error _ => none

/-- Eleven puts with distinct keys, two of them colliding with an earlier one; the tenth put
finds 8 of 10 slots used and grows the table. -/
def roundTripPuts : List (Int × Int) :=
  [(3, 7), (13, 9), (0, 1), (1, 4), (2, 5), (4, 6), (5, 8), (6, 2), (7, 3), (8, -1), (23, 0)]

/-- Puts before the first put of key 5. -/
def dupPre : List (Int × Int) := [(1, 1), (2, 2)]

/-- Puts after the first put of key 5: two more puts of key 5, with a growth (at the put of
key 9) in between. -/
def dupPost : List (Int × Int) :=
  [(15, 1), (5, 51), (3, 0), (4, 0), (6, 0), (7, 0), (8, 0), (9, 0), (5, 52)]

/-- No chain hangs off an empty slot: a head with key `NO_VALUE` has a null `next`. -/
def NoHidden (map : HashMap) : Prop := ∀ b ∈ map.buckets, b.key = NO_VALUE → b.next = []

/-- Everything a slot stores: its head, unless the head key is `NO_VALUE`, and every node of
its chain. -/
def storedIn (b : Bucket) : List (Int × Int) :=
  (if b.key = NO_VALUE then [] else [(b.key, b.value)]) ++ b.next

/-- All slot heads and chain nodes of the table. -/
def allStored (map : HashMap) : List (Int × Int) := (map.buckets.map storedIn).flatten

/-- Placement: a slot whose head key is `NO_VALUE` stores nothing, and every entry of slot `i`,
head or chained, has a non-negative key with `key mod bucket_count == i`. -/
def PlacementInv (map : HashMap) : Prop :=
  ∀ (i : Nat) (b : Bucket), map.buckets[i]? = some b →
    (b.key ≠ NO_VALUE ↔ storedIn b ≠ []) ∧
    ∀ p ∈ storedIn b, 0 ≤ p.1 ∧ HASH p.1 map.bucket_count = (i : Int) ∧
      p.1 % map.bucket_count = (i : Int)

/-- Number of different slots that the keys of `l` occupy in a table of `n` slots. -/
def slotsNeeded (l : List (Int × Int)) (n : Int) : Nat :=
  ((l.map (fun p => p.1 % n)).toFinset).card

/-- The load invariant of every table built by puts from an empty table whose slot count is a
multiple of 4: at most three quarters of the slots are used, and in a table of twice the size
the entries would leave at least one slot free below three quarters. -/
structure LoadInv (map : HashMap) : Prop where
  four : (4 : Int) ∣ map.bucket_count
  load : 4 * map.used_buckets ≤ 3 * map.bucket_count
  next : 4 * (slotsNeeded (entries map) (2 * map.bucket_count) : Int) + 4 ≤ 6 * map.bucket_count

/-- Sixteen puts after which 16 of 20 slots are used: seven slots of the initial table get two
entries each, an eighth slot gets one, and the sixteenth put grows the table to 20 slots, where
the fifteen replayed entries and the new one occupy sixteen different slots. -/
def tightPuts : List (Int × Int) :=
  [(0, 0), (1, 0), (2, 0), (3, 0), (4, 0), (5, 0), (6, 0), (10, 0), (11, 0), (12, 0), (13, 0),
   (14, 0), (15, 0), (16, 0), (7, 0), (8, 0)]

/-- Ways in which the program can go wrong on the heap: the fuel runs out, an index leaves the
bucket array, `% 0`, a block is read or written that is not allocated (or is of the wrong
kind), a block is released that is not allocated (a double release is one), or a field is
read or written that lies outside the block it is addressed in. -/
inductive MemFault where
  | outOfFuel
  | outOfBounds
  | divByZero
  | invalidRead
  | invalidFree
  | outOfBlock
  deriving DecidableEq, Repr

/-- Source: `sizeof(int)` on the usual platforms. -/
def SIZEOF_INT : Nat := 4

/-- Source: `sizeof(struct Bucket *)`, the argument of `malloc` at line 120: the size of a
pointer on the 64-bit platforms. -/
def SIZEOF_POINTER : Nat := 8

/-- Source: offset of the field `key` in `struct BUCKET_T`. -/
def OFFSET_KEY : Nat := 0

/-- Source: offset of the field `value` in `struct BUCKET_T`, after the `int` `key`. -/
def OFFSET_VALUE : Nat := OFFSET_KEY + SIZEOF_INT

/-- Source: offset of the field `next` in `struct BUCKET_T`, after the two `int`s. -/
def OFFSET_NEXT : Nat := OFFSET_VALUE + SIZEOF_INT

/-- Source: `sizeof(Bucket)`: two `int`s and a pointer. -/
def SIZEOF_BUCKET : Nat := OFFSET_NEXT + SIZEOF_POINTER

/-- Source: `struct BUCKET_T` as it lies in memory: `next` is a pointer, `none` for `NULL`. -/
structure HeapBucket where
  key : Int
  value : Int
  next : Option Nat
  deriving DecidableEq, Repr

/-- An allocated block: a chain node (from the `malloc` of `put`) of `size` bytes, accessed as
a `Bucket`, or a bucket array (from `calloc`). -/
inductive Block where
  | node (size : Nat) (b : HeapBucket)
  | array (slots : List HeapBucket)
  deriving DecidableEq, Repr

/-- The allocated blocks by address. -/
abbrev Mem := Nat → Option Block

/-- The memory `mem` with the block at `p` replaced by `b`. -/
def store (mem : Mem) (p : Nat) (b : Option Block) : Mem := fun a => if a = p then b else mem a

/-- The heap: the allocated blocks, the next address the allocator hands out (no address is
handed out twice), and the addresses passed to `free` so far, in order. -/
structure Heap where
  mem : Mem
  fresh : Nat
  released : List Nat

/-- The heap before the first allocation. -/
def emptyHeap : Heap := ⟨fun _ => none, 1, []⟩

/-- Source: `HashMap` as it lies in memory: `buckets` is the address of the bucket array. -/
structure HeapMap where
  buckets : Nat
  bucket_count : Int
  used_buckets : Int
  deriving DecidableEq, Repr

/-- Source: `malloc` / `calloc`: a new block at an address not used before. -/
def alloc (h : Heap) (b : Block) : Nat × Heap :=
  (h.fresh, { h with mem := store h.mem h.fresh (some b), fresh := h.fresh + 1 })

/-- Source: `free(p)`: the block at `p` must be allocated; it is so no longer afterwards. -/
def release (h : Heap) (p : Nat) : Except MemFault Heap :=
  match h.mem p with
  | none => .error .invalidFree
  | some _ => .ok { h with mem := store h.mem p none, released := h.released ++ [p] }

/-- Source: the read of `buckets[i]`, the bucket array being at the address `buckets`. -/
def readSlot (mem : Mem) (buckets : Nat) (i : Int) : Except MemFault HeapBucket :=
  match mem buckets with
  | some (.array slots) =>
    if 0 ≤ i then
      match slots[i.toNat]? with
      | some s => .ok s
      | none => .error .outOfBounds
    else .error .outOfBounds
  | _ => .error .invalidRead

/-- Source: the write of `buckets[i]`, the bucket array being at the address `buckets`. -/
def writeSlot (mem : Mem) (buckets : Nat) (i : Int) (s : HeapBucket) : Except MemFault Mem :=
  match mem buckets with
  | some (.array slots) =>
    if 0 ≤ i ∧ i.toNat < slots.length then
      .ok (store mem buckets (some (.array (slots.set i.toNat s))))
    else .error .outOfBounds
  | _ => .error .invalidRead

/-- Source: the read, through a `Bucket *`, of the field of `width` bytes at `offset` in the
chain node at `p`: the field has to lie inside the block. -/
def readNode (mem : Mem) (p : Nat) (offset width : Nat) : Except MemFault HeapBucket :=
  match mem p with
  | some (.node size b) => if offset + width ≤ size then .ok b else .error .outOfBlock
  | _ => .error .invalidRead

/-- Source: the write, through a `Bucket *`, of the field of `width` bytes at `offset` in the
chain node at `p`: the field has to lie inside the block. -/
def writeNode (mem : Mem) (p : Nat) (offset width : Nat) (f : HeapBucket → HeapBucket) :
    Except MemFault Mem :=
  match mem p with
  | some (.node size b) =>
    if offset + width ≤ size then .ok (store mem p (some (.node size (f b))))
    else .error .outOfBlock
  | _ => .error .invalidRead

/-- Source: the read of `p->next`. -/
def readNext (mem : Mem) (p : Nat) : Except MemFault (Option Nat) :=
  match readNode mem p OFFSET_NEXT SIZEOF_POINTER with
  | .error e => .error e
  | .ok b => .ok b.next

/-- Source: the `while (current->next != NULL)` loop of `put`, lines 116-118: the walk from
the node `current` to the last node of its chain. -/
def lastNode : Nat → Mem → Nat → Except MemFault Nat
  | 0, _, _ => .error .outOfFuel
  | fuel + 1, mem, current =>
    match readNext mem current with
    | .error e => .error e
    | .ok none => .ok current
    | .ok (some next) => lastNode fuel mem next

/-- Source: lines 114-119 of `put`: `current` is the `next` of the slot and, unless that is
`NULL`, walks to the last node of the chain. -/
def chainEnd (fuel : Nat) (mem : Mem) : Option Nat → Except MemFault (Option Nat)
  | none => .ok none
  | some current =>
    match lastNode fuel mem current with
    | .error e => .error e
    | .ok current => .ok (some current)

/-- Source: lines 120-123 of `put`: `malloc(sizeof(struct Bucket *))`, then the writes of `key`,
`value` and `next` through the `Bucket *` it returned.  The block has the `usable` bytes the
allocator gives for a request of that size; what it holds before the writes does not matter,
all three fields are written. -/
def newNode (usable : Nat → Nat) (h : Heap) (key value : Int) : Except MemFault (Nat × Heap) :=
  let r := alloc h (.node (usable SIZEOF_POINTER) ⟨0, 0, none⟩)
  match writeNode r.2.mem r.1 OFFSET_KEY SIZEOF_INT (fun b => { b with key := key }) with
  | .error e => .error e
  | .ok mem =>
    match writeNode mem r.1 OFFSET_VALUE SIZEOF_INT (fun b => { b with value := value }) with
    | .error e => .error e
    | .ok mem =>
      match writeNode mem r.1 OFFSET_NEXT SIZEOF_POINTER (fun b => { b with next := none }) with
      | .error e => .error e
      | .ok mem => .ok (r.1, { r.2 with mem := mem })

/-- Source: lines 109-129 of `put`, on the heap. -/
def hputBucket (usable : Nat → Nat) (fuel : Nat) (h : Heap) (map : HeapMap) (key value : Int) :
    Except MemFault (Heap × HeapMap) :=
  if map.bucket_count = 0 then .error .divByZero
  else
    let hash := HASH key map.bucket_count
    match readSlot h.mem map.buckets hash with
    | .error e => .error e
    | .ok s =>
      if s.key = NO_VALUE then
        match writeSlot h.mem map.buckets hash ⟨key, value, none⟩ with
        | .error e => .error e
        | .ok mem =>
          .ok ({ h with mem := mem }, { map with used_buckets := map.used_buckets + 1 })
      else
        match chainEnd fuel h.mem s.next with
        | .error e => .error e
        | .ok current =>
          match newNode usable h key value with
          | .error e => .error e
          | .ok (next_bucket, h) =>
            match current with
            | none =>
              match writeSlot h.mem map.buckets hash { s with next := some next_bucket } with
              | .error e => .error e
              | .ok mem => .ok ({ h with mem := mem }, map)
            | some current =>
              match writeNode h.mem current OFFSET_NEXT SIZEOF_POINTER
                (fun b => { b with next := some next_bucket }) with
              | .error e => .error e
              | .ok mem => .ok ({ h with mem := mem }, map)

/-- Source: the `while (bucket != NULL)` loop of `rehash` from the second iteration on, where
`bucket` is a chain node: `put(&new_map, bucket->key, bucket->value)`, then
`bucket = bucket->next`. -/
def hreplayChain (put : Heap → HeapMap → Int → Int → Except MemFault (Heap × HeapMap)) :
    Nat → Heap → HeapMap → Option Nat → Except MemFault (Heap × HeapMap)
  | _, h, new_map, none => .ok (h, new_map)
  | 0, _, _, some _ => .error .outOfFuel
  | fuel + 1, h, new_map, some bucket =>
    match readNode h.mem bucket OFFSET_KEY SIZEOF_INT with
    | .error e => .error e
    | .ok bk =>
      match readNode h.mem bucket OFFSET_VALUE SIZEOF_INT with
      | .error e => .error e
      | .ok bv =>
        match put h new_map bk.key bv.value with
        | .error e => .error e
        | .ok (h, new_map) =>
          match readNext h.mem bucket with
          | .error e => .error e
          | .ok next => hreplayChain put fuel h new_map next

/-- Source: the `for` loop of `rehash`, at index `i` with `n` iterations to go; the first
iteration of the inner `while` loop has `bucket = &map.buckets[i]`, the slot itself. -/
def hreplaySlots (put : Heap → HeapMap → Int → Int → Except MemFault (Heap × HeapMap))
    (fuel : Nat) (buckets : Nat) :
    Nat → Nat → Heap → HeapMap → Except MemFault (Heap × HeapMap)
  | _, 0, h, new_map => .ok (h, new_map)
  | i, n + 1, h, new_map =>
    match readSlot h.mem buckets i with
    | .error e => .error e
    | .ok s =>
      if s.key = NO_VALUE then hreplaySlots put fuel buckets (i + 1) n h new_map
      else
        match put h new_map s.key s.value with
        | .error e => .error e
        | .ok (h, new_map) =>
          match readSlot h.mem buckets i with
          | .error e => .error e
          | .ok s =>
            match hreplayChain put fuel h new_map s.next with
            | .error e => .error e
            | .ok (h, new_map) => hreplaySlots put fuel buckets (i + 1) n h new_map

/-- Source: `rehash`, on the heap: `calloc` and `ZERO_HASHMAP` of the new array, the replay of
every entry through `put`, and `free(map.buckets)`, the only `free` of the function. -/
def hrehashWith (put : Heap → HeapMap → Int → Int → Except MemFault (Heap × HeapMap))
    (fuel : Nat) (h : Heap) (map : HeapMap) (growth_factor : Int) :
    Except MemFault (Heap × HeapMap) :=
  let n := map.bucket_count * growth_factor
  let r := alloc h (.array (List.replicate n.toNat ⟨NO_VALUE, NO_VALUE, none⟩))
  match hreplaySlots put fuel map.buckets 0 map.bucket_count.toNat r.2 ⟨r.1, n, 0⟩ with
  | .error e => .error e
  | .ok (h, new_map) =>
    match release h map.buckets with
    | .error e => .error e
    | .ok h => .ok (h, new_map)

/-- Source: `put`, on the heap.  The fuel bounds the nesting of `put` inside `rehash` and the
iterations of the loops over a chain. -/
def hput (usable : Nat → Nat) :
    Nat → Heap → HeapMap → Int → Int → Except MemFault (Heap × HeapMap)
  | 0, _, _, _, _ => .error .outOfFuel
  | fuel + 1, h, map, key, value =>
    if SHOULD_MAP_EXPAND map.used_buckets map.bucket_count then
      match hrehashWith (hput usable fuel) fuel h map GROWTH_FACTOR with
      | .error e => .error e
      | .ok (h, map) => hputBucket usable fuel h map key value
    else hputBucket usable fuel h map key value

/-- Source: `new_hashmap`, on the heap: `calloc` and `ZERO_HASHMAP` of the bucket array. -/
def hnew_hashmap (h : Heap) : Heap × HeapMap :=
  let r := alloc h (.array (List.replicate INITIAL_MAP_SIZE.toNat ⟨NO_VALUE, NO_VALUE, none⟩))
  (r.2, ⟨r.1, INITIAL_MAP_SIZE, 0⟩)

/-- Source: the `while (bucket != NULL)` loop of `free_hashmap`: `next = bucket->next` is read
first, then `free(bucket)`, then the loop goes on with `next`. -/
def freeChain : Nat → Heap → Option Nat → Except MemFault Heap
  | _, h, none => .ok h
  | 0, _, some _ => .error .outOfFuel
  | fuel + 1, h, some bucket =>
    match readNext h.mem bucket with
    | .error e => .error e
    | .ok next =>
      match release h bucket with
      | .error e => .error e
      | .ok h => freeChain fuel h next

/-- Source: the `for` loop of `free_hashmap`, at index `i` with `n` iterations to go: slots
with a non-null `next` have their chain released. -/
def freeSlots (fuel : Nat) (buckets : Nat) : Nat → Nat → Heap → Except MemFault Heap
  | _, 0, h => .ok h
  | i, n + 1, h =>
    match readSlot h.mem buckets i with
    | .error e => .error e
    | .ok s =>
      match freeChain fuel h s.next with
      | .error e => .error e
      | .ok h => freeSlots fuel buckets (i + 1) n h

/-- Source: `free_hashmap`: release the chains of all slots, then the bucket array. -/
def free_hashmap (fuel : Nat) (map : HeapMap) (h : Heap) : Except MemFault Heap :=
  match freeSlots fuel map.buckets 0 map.bucket_count.toNat h with
  | .error e => .error e
  | .ok h => release h map.buckets

/-- A sequence of `put` calls on the heap, as `putAll`. -/
def hputAll (usable : Nat → Nat) (fuel : Nat) :
    Heap → HeapMap → List (Int × Int) → Except MemFault (Heap × HeapMap)
  | h, map, [] => .ok (h, map)
  | h, map, (key, value) :: rest =>
    match hput usable fuel h map key value with
    | .error e => .error e
    | .ok (h, map) => hputAll usable fuel h map rest

/-- The program `new_hashmap()` followed by the `put` calls `kvs`, from the empty heap. -/
def build (usable : Nat → Nat) (fuel : Nat) (kvs : List (Int × Int)) :
    Except MemFault (Heap × HeapMap) :=
  let r := hnew_hashmap emptyHeap
  hputAll usable fuel r.1 r.2 kvs

/-- The program `new_hashmap()`, the `put` calls `kvs`, `free_hashmap(&map)`, from the empty
heap. -/
def buildAndFree (usable : Nat → Nat) (fuel : Nat) (kvs : List (Int × Int)) :
    Except MemFault Heap :=
  match build usable fuel kvs with
  | .error e => .error e
  | .ok (h, map) => free_hashmap fuel map h

/-- An allocator whose blocks have exactly the size asked for, all that C promises. -/
def exactSize (n : Nat) : Nat := n

/-- An allocator whose smallest block has 24 usable bytes, as that of glibc on the 64-bit
platforms. -/
def paddedSize (n : Nat) : Nat := max n 24

/-- The addresses of the chain nodes that are allocated. -/
def allocatedNodes (h : Heap) : List Nat :=
  (List.range h.fresh).filter fun a =>
    match h.mem a with
    | some (.node _ _) => true
    | _ => false

/-- The addresses of the bucket arrays that are allocated. -/
def allocatedArrays (h : Heap) : List Nat :=
  (List.range h.fresh).filter fun a =>
    match h.mem a with
    | some (.array _) => true
    | _ => false

/-- The entries of the chain that starts at `p`, with the addresses of its nodes. -/
def viewChain : Nat → Mem → Option Nat → Option (List (Nat × Int × Int))
  | _, _, none => some []
  | 0, _, some _ => none
  | fuel + 1, mem, some p =>
    match mem p with
    | some (.node _ b) =>
      match viewChain fuel mem b.next with
      | some l => some ((p, b.key, b.value) :: l)
      | none => none
    | _ => none

/-- The slots of a bucket array as `Bucket`s, with the addresses of the chain nodes. -/
def viewSlots (fuel : Nat) (mem : Mem) : List HeapBucket → Option (List Bucket × List Nat)
  | [] => some ([], [])
  | s :: ss =>
    match viewChain fuel mem s.next, viewSlots fuel mem ss with
    | some l, some (bs, ps) =>
      some (⟨s.key, s.value, l.map fun x => x.2⟩ :: bs, l.map (fun x => x.1) ++ ps)
    | _, _ => none

/-- The table that lies in the heap, as a `HashMap`, and the addresses of its chain nodes. -/
def view (fuel : Nat) (r : Heap × HeapMap) : Option (HashMap × List Nat) :=
  match r.1.mem r.2.buckets with
  | some (.array slots) =>
    match viewSlots fuel r.1.mem slots with
    | some (bs, ps) => some (⟨bs, r.2.bucket_count, r.2.used_buckets⟩, ps)
    | none => none
  | _ => none

/-- What is left of the heap: the nodes and the arrays still allocated, and the addresses
released so far. -/
structure Residue where
  nodes : List Nat
  arrays : List Nat
  released : List Nat
  deriving DecidableEq, Repr

/-- The residue of a heap. -/
def residue (h : Heap) : Residue := ⟨allocatedNodes h, allocatedArrays h, h.released⟩

/-- The seventeen puts of the nested growth: `nestedGrowthPuts`, then the put of key 8 that
grows the table from 10 to 40 slots. -/
def leakPuts : List (Int × Int) := nestedGrowthPuts ++ [(8, 0)]

/-! ## Supporting lemmas -/

theorem appendNode_eq (l : List (Int × Int)) (k v : Int) : appendNode l k v = l ++ [(k, v)] := by
  induction l with
  | nil => rfl
  | cons a l ih => simp [appendNode, ih]

theorem firstValue_append (l₁ l₂ : List (Int × Int)) (k : Int) :
    firstValue (l₁ ++ l₂) k = (firstValue l₁ k).orElse (fun _ => firstValue l₂ k) := by
  induction l₁ with
  | nil => simp [firstValue]
  | cons a l ih =>
    obtain ⟨k', v'⟩ := a
    by_cases h : k' = k <;> simp [firstValue, h, ih]

theorem firstValue_eq_none {l : List (Int × Int)} {k : Int} (h : ∀ p ∈ l, p.1 ≠ k) :
    firstValue l k = none := by
  induction l with
  | nil => rfl
  | cons a l ih =>
    obtain ⟨k', v'⟩ := a
    have h1 : k' ≠ k := h (k', v') (by simp)
    simp only [firstValue, h1, if_false]
    exact ih (fun p hp => h p (by simp [hp]))

theorem walk_eq (l : List (Int × Int)) (k : Int) : walk l k = (firstValue l k).getD NO_VALUE := by
  induction l with
  | nil => rfl
  | cons a l ih =>
    obtain ⟨k', v'⟩ := a
    by_cases h : k' = k <;> simp [walk, firstValue, h, ih]

theorem HASH_nonneg {k : Int} (c : Int) (hk : 0 ≤ k) : 0 ≤ HASH k c := Int.tmod_nonneg c hk

theorem HASH_lt (k : Int) {c : Int} (hc : 0 < c) : HASH k c < c := Int.tmod_lt_of_pos k hc

theorem getElem?_split {α : Type} {l : List α} {i : Nat} {b : α} (h : l[i]? = some b) :
    ∃ pre post, l = pre ++ b :: post ∧ pre.length = i ∧
      ∀ b', l.set i b' = pre ++ b' :: post := by
  induction l generalizing i with
  | nil => simp at h
  | cons a l ih =>
    cases i with
    | zero =>
      simp at h
      exact ⟨[], l, by simp [h], rfl, fun b' => by simp⟩
    | succ i =>
      simp at h
      obtain ⟨pre, post, h1, h2, h3⟩ := ih h
      exact ⟨a :: pre, post, by simp [h1], by simp [h2], fun b' => by simp [h3]⟩

theorem bucketAt_HASH {map : HashMap} (hpos : 0 < map.bucket_count)
    (hsize : (map.buckets.length : Int) = map.bucket_count) {k : Int} (hk : 0 ≤ k) :
    ∃ b, map.buckets[(HASH k map.bucket_count).toNat]? = some b ∧
      bucketAt map (HASH k map.bucket_count) = some b := by
  have h0 := HASH_nonneg map.bucket_count hk
  have h1 := HASH_lt k hpos
  have h2 : (HASH k map.bucket_count).toNat < map.buckets.length := by
    rw [Int.toNat_lt h0, hsize]; exact h1
  refine ⟨map.buckets[(HASH k map.bucket_count).toNat], List.getElem?_eq_getElem h2, ?_⟩
  simp [bucketAt, h0, List.getElem?_eq_getElem h2]

/-- The insertion proper rewrites exactly one slot, appending `(k, v)` to its chain. -/
theorem putBucket_eq {map : HashMap} (hpos : 0 < map.bucket_count)
    (hsize : (map.buckets.length : Int) = map.bucket_count) {k : Int} (hk : 0 ≤ k) (v : Int) :
    ∃ b b', map.buckets[(HASH k map.bucket_count).toNat]? = some b ∧
      chainOf b' = chainOf b ++ [(k, v)] ∧ b'.key ≠ NO_VALUE ∧
      putBucket map k v = .ok
        { buckets := map.buckets.set (HASH k map.bucket_count).toNat b'
          bucket_count := map.bucket_count
          used_buckets := map.used_buckets + (if b.key = NO_VALUE then 1 else 0) } := by
  obtain ⟨b, hb, hb'⟩ := bucketAt_HASH hpos hsize hk
  have hk1 : k ≠ NO_VALUE := by unfold NO_VALUE; omega
  by_cases he : b.key = NO_VALUE
  · refine ⟨b, ⟨k, v, []⟩, hb, ?_, hk1, ?_⟩
    · simp [chainOf, he, hk1]
    · simp [putBucket, hpos.ne', hb', he]
  · refine ⟨b, { b with next := appendNode b.next k v }, hb, ?_, he, ?_⟩
    · simp [chainOf, he, appendNode_eq]
    · simp [putBucket, hpos.ne', hb', he]

theorem chainOf_eq_nil_iff (b : Bucket) : chainOf b = [] ↔ b.key = NO_VALUE := by
  unfold chainOf; split <;> simp [*]

theorem entries_split {pre post : List Bucket} (b : Bucket) :
    ((pre ++ b :: post).map chainOf).flatten =
      (pre.map chainOf).flatten ++ chainOf b ++ (post.map chainOf).flatten := by
  simp

theorem occupied_split {pre post : List Bucket} (b : Bucket) :
    occupied (pre ++ b :: post) =
      occupied pre + (if b.key = NO_VALUE then 0 else 1) + occupied post := by
  unfold occupied
  by_cases h : b.key = NO_VALUE
  · simp [List.countP_cons, h]
  · simp [List.countP_cons, h]; omega

/-- The effect of the insertion proper on a well-formed table. -/
theorem putBucket_post {map : HashMap} (hwf : WF map) {k : Int} (hk : 0 ≤ k) (v : Int) :
    ∃ map', putBucket map k v = .ok map' ∧ WF map' ∧
      map'.bucket_count = map.bucket_count ∧
      (entries map').Perm (entries map ++ [(k, v)]) ∧
      (∀ k', 0 ≤ k' →
        find? map' k' = (find? map k').orElse (fun _ => firstValue [(k, v)] k')) ∧
      (UsedOK map → UsedOK map') ∧
      map.used_buckets ≤ map'.used_buckets ∧ map'.used_buckets ≤ map.used_buckets + 1 := by
  obtain ⟨b, b', hb, hchain, hb'key, hput⟩ := putBucket_eq hwf.pos hwf.size hk v
  have h0 := HASH_nonneg map.bucket_count hk
  have hlt : (HASH k map.bucket_count).toNat < map.buckets.length :=
    (List.getElem?_eq_some.1 hb).1
  obtain ⟨pre, post, hsplit, hlen, hset⟩ := getElem?_split hb
  refine ⟨_, hput, ⟨hwf.pos, ?_, ?_⟩, rfl, ?_, ?_, ?_, ?_, ?_⟩
  · simpa using hwf.size
  · intro i b0 hb0 p hp
    simp only [List.getElem?_set] at hb0
    by_cases hi : (HASH k map.bucket_count).toNat = i
    · simp only [hi, if_true] at hb0
      have hi' : i < map.buckets.length := hi ▸ hlt
      simp only [hi', if_true, Option.some.injEq] at hb0
      subst hb0
      rw [hchain, List.mem_append] at hp
      rcases hp with hp | hp
      · exact hwf.placed i b (hi ▸ hb) p hp
      · simp only [List.mem_singleton] at hp
        subst hp
        refine ⟨hk, ?_⟩
        rw [← hi]
        exact (Int.toNat_of_nonneg h0).symm
    · simp only [hi, if_false] at hb0
      exact hwf.placed i b0 hb0 p hp
  · show ((List.map chainOf (map.buckets.set _ b')).flatten).Perm
      ((List.map chainOf map.buckets).flatten ++ [(k, v)])
    rw [hset b', hsplit, entries_split, entries_split, hchain]
    simp only [List.append_assoc]
    refine List.Perm.append_left _ (List.Perm.append_left _ ?_)
    exact List.perm_append_comm
  · intro k' hk'
    have h0' := HASH_nonneg map.bucket_count hk'
    simp only [find?, bucketAt, h0', if_true, List.getElem?_set]
    by_cases hi : (HASH k map.bucket_count).toNat = (HASH k' map.bucket_count).toNat
    · simp only [hi, if_true]
      have hlt' : (HASH k' map.bucket_count).toNat < map.buckets.length := hi ▸ hlt
      rw [hi] at hb
      simp only [hlt', if_true, hb, hchain, firstValue_append]
    · simp only [hi, if_false]
      have hne : k ≠ k' := fun h => hi (by rw [h])
      cases hf : map.buckets[(HASH k' map.bucket_count).toNat]? with
      | none => simp [firstValue, hne]
      | some b0 => cases hv : firstValue (chainOf b0) k' <;> simp [firstValue, hne]
  · intro hu
    unfold UsedOK at hu ⊢
    show map.used_buckets + _ = ((occupied (map.buckets.set _ b') : Nat) : Int)
    rw [hu, hset b']
    conv_lhs => rw [hsplit]
    rw [occupied_split, occupied_split]
    by_cases he : b.key = NO_VALUE
    · simp [he, hb'key]; omega
    · simp [he, hb'key]
  · show map.used_buckets ≤ map.used_buckets + _
    split <;> omega
  · show map.used_buckets + _ ≤ map.used_buckets + 1
    split <;> omega

theorem mem_entries_iff {bs : List Bucket} {p : Int × Int} :
    p ∈ (bs.map chainOf).flatten ↔ ∃ (i : Nat) (b : Bucket), bs[i]? = some b ∧ p ∈ chainOf b := by
  simp only [List.mem_flatten, List.mem_map]
  constructor
  · rintro ⟨l, ⟨b, hb, rfl⟩, hp⟩
    obtain ⟨i, hi⟩ := List.mem_iff_getElem?.1 hb
    exact ⟨i, b, hi, hp⟩
  · rintro ⟨i, b, hb, hp⟩
    exact ⟨chainOf b, ⟨b, List.mem_iff_getElem?.2 ⟨i, hb⟩, rfl⟩, hp⟩

/-- Every stored key is non-negative. -/
theorem WF.key_nonneg {map : HashMap} (hwf : WF map) {p : Int × Int} (hp : p ∈ entries map) :
    0 ≤ p.1 := by
  obtain ⟨i, b, hb, hpb⟩ := mem_entries_iff.1 hp
  exact (hwf.placed i b hb p hpb).1

/-- In a well-formed table the chain of the slot a key hashes to holds every entry with that
key, so a lookup sees the first such entry of the whole table. -/
theorem find?_eq_firstValue_entries {map : HashMap} (hwf : WF map) {k : Int} (hk : 0 ≤ k) :
    find? map k = firstValue (entries map) k := by
  obtain ⟨b, hb, hb'⟩ := bucketAt_HASH hwf.pos hwf.size hk
  have h0 := HASH_nonneg map.bucket_count hk
  obtain ⟨pre, post, hsplit, hlen, -⟩ := getElem?_split hb
  have hpre : firstValue ((pre.map chainOf).flatten) k = none := by
    apply firstValue_eq_none
    intro p hp hpk
    obtain ⟨i, b0, hb0, hpb0⟩ := mem_entries_iff.1 hp
    have hi : i < pre.length := (List.getElem?_eq_some.1 hb0).1
    have hb1 : map.buckets[i]? = some b0 := by
      rw [hsplit, List.getElem?_append_left hi]; exact hb0
    have := (hwf.placed i b0 hb1 p hpb0).2
    rw [hpk] at this
    rw [this] at hlen
    simp at hlen
    omega
  have hpost : firstValue ((post.map chainOf).flatten) k = none := by
    apply firstValue_eq_none
    intro p hp hpk
    obtain ⟨i, b0, hb0, hpb0⟩ := mem_entries_iff.1 hp
    have hb1 : map.buckets[pre.length + 1 + i]? = some b0 := by
      rw [hsplit, List.getElem?_append_right (by omega)]
      have : pre.length + 1 + i - pre.length = i + 1 := by omega
      rw [this]
      simpa using hb0
    have := (hwf.placed _ b0 hb1 p hpb0).2
    rw [hpk] at this
    rw [this] at hlen
    simp at hlen
    omega
  unfold find? entries
  rw [hb']
  conv_rhs => rw [hsplit]
  rw [entries_split, firstValue_append, firstValue_append, hpre, hpost]
  show firstValue (chainOf b) k = _
  cases firstValue (chainOf b) k <;> rfl

/-- Within a well-formed table `get` returns what `find?` finds, and `NO_VALUE` on a miss. -/
theorem get_eq_find? {map : HashMap} (hwf : WF map) {k : Int} (hk : 0 ≤ k) :
    get map k = .ok ((find? map k).getD NO_VALUE) := by
  obtain ⟨b, hb, hb'⟩ := bucketAt_HASH hwf.pos hwf.size hk
  unfold get find?
  simp only [hwf.pos.ne', if_false, hb']
  by_cases he : b.key = NO_VALUE
  · simp [he, chainOf, firstValue]
  · simp [he, chainOf, walk_eq]

theorem replayChain_append (p : HashMap → Int → Int → Except Fault HashMap)
    (l₁ l₂ : List (Int × Int)) (acc : HashMap) :
    replayChain p (l₁ ++ l₂) acc =
      match replayChain p l₁ acc with
      | .error e => .error e
      | .ok m => replayChain p l₂ m := by
  induction l₁ generalizing acc with
  | nil => rfl
  | cons a l ih =>
    obtain ⟨k, v⟩ := a
    simp only [List.cons_append, replayChain]
    cases p acc k v with
    | error e => rfl
    | ok m => exact ih m

/-- The two nested loops of `rehash` replay the entries of the old table in order. -/
theorem replayBuckets_eq (p : HashMap → Int → Int → Except Fault HashMap)
    (bs : List Bucket) (acc : HashMap) :
    replayBuckets p bs acc = replayChain p ((bs.map chainOf).flatten) acc := by
  induction bs generalizing acc with
  | nil => rfl
  | cons b bs ih =>
    simp only [List.map_cons, List.flatten_cons, replayChain_append]
    by_cases he : b.key = NO_VALUE
    · simp [replayBuckets, he, chainOf, replayChain, ih]
    · simp only [replayBuckets, he, chainOf, if_false, ne_eq, not_false_eq_true, if_true]
      cases replayChain p ((b.key, b.value) :: b.next) acc with
      | error e => rfl
      | ok m => exact ih m

theorem chainOf_emptyBucket : chainOf emptyBucket = [] := by
  simp [chainOf, emptyBucket]

theorem entries_freshMap (n : Int) : entries (freshMap n) = [] := by
  simp [entries, freshMap, zeroedBuckets, chainOf_emptyBucket]

theorem WF_freshMap {n : Int} (hn : 0 < n) : WF (freshMap n) := by
  refine ⟨hn, ?_, ?_⟩
  · simp [freshMap, zeroedBuckets, Int.toNat_of_nonneg hn.le]
  · intro i b hb p hp
    simp only [freshMap, zeroedBuckets, List.getElem?_replicate] at hb
    split at hb
    · simp only [Option.some.injEq] at hb
      subst hb
      simp [chainOf_emptyBucket] at hp
    · simp at hb

theorem UsedOK_freshMap (n : Int) : UsedOK (freshMap n) := by
  simp [UsedOK, freshMap, zeroedBuckets, occupied, List.countP_replicate, emptyBucket]

theorem new_hashmap_eq : new_hashmap = freshMap 10 := rfl

/-- Replaying a list of entries through `put`. -/
theorem replay_spec {fuel : Nat} (hput : PutSpec fuel) (l : List (Int × Int)) :
    ∀ acc : HashMap, WF acc → (∀ p ∈ l, 0 ≤ p.1) → (entries acc).length + l.length ≤ fuel →
    ∃ map', replayChain (put fuel) l acc = .ok map' ∧ WF map' ∧
      (entries map').Perm (entries acc ++ l) ∧
      (∀ k', 0 ≤ k' → find? map' k' = (find? acc k').orElse (fun _ => firstValue l k')) ∧
      (UsedOK acc → UsedOK map') ∧
      ∃ j : Nat, map'.bucket_count = acc.bucket_count * 2 ^ j := by
  induction l with
  | nil =>
    intro acc hwf _ _
    refine ⟨acc, rfl, hwf, by simp, ?_, id, 0, by simp⟩
    intro k' _
    cases find? acc k' <;> rfl
  | cons a l ih =>
    obtain ⟨k, v⟩ := a
    intro acc hwf hkeys hfuel
    simp only [List.length_cons] at hfuel
    obtain ⟨m1, hm1, post⟩ := hput acc k v hwf (hkeys (k, v) (by simp)) (by omega)
    have hlen : (entries m1).length = (entries acc).length + 1 := by
      simpa using post.perm.length_eq
    obtain ⟨m2, hm2, hwf2, hperm2, hfind2, hused2, j2, hj2⟩ :=
      ih m1 post.wf (fun p hp => hkeys p (by simp [hp])) (by omega)
    obtain ⟨j1, hj1⟩ := post.count
    refine ⟨m2, ?_, hwf2, ?_, ?_, ?_, j1 + j2, ?_⟩
    · simp only [replayChain, hm1]; exact hm2
    · refine hperm2.trans ?_
      have := post.perm.append_right l
      simpa using this
    · intro k' hk'
      rw [hfind2 k' hk', post.find k' hk']
      cases find? acc k' <;> by_cases h : k = k' <;> simp [firstValue, h]
    · exact fun hu => hused2 (post.used (Or.inl hu))
    · rw [hj2, hj1, pow_add, mul_assoc]

/-- The code of `rehash` on a well-formed table: it returns a well-formed table with an exact
counter, the same entries and the same lookups, and `growth_factor` times a power of two as
many slots. -/
theorem rehashWith_spec {fuel : Nat} (hput : PutSpec fuel) {map : HashMap} (hwf : WF map)
    (g : Int) (hg : 1 ≤ g) (hfuel : (entries map).length ≤ fuel) :
    ∃ map', rehashWith (put fuel) map g = .ok map' ∧ WF map' ∧ UsedOK map' ∧
      (entries map').Perm (entries map) ∧
      (∀ k', 0 ≤ k' → find? map' k' = find? map k') ∧
      ∃ j : Nat, map'.bucket_count = map.bucket_count * g * 2 ^ j := by
  have hpos : 0 < map.bucket_count * g := Int.mul_pos hwf.pos (by omega)
  have hlen : map.bucket_count.toNat = map.buckets.length := by
    have := hwf.size; omega
  obtain ⟨m', hm', hwf', hperm, hfind, hused, j, hj⟩ :=
    replay_spec hput (entries map) (freshMap (map.bucket_count * g)) (WF_freshMap hpos)
      (fun p hp => hwf.key_nonneg hp) (by simp [entries_freshMap, hfuel])
  refine ⟨m', ?_, hwf', hused (UsedOK_freshMap _), by simpa [entries_freshMap] using hperm,
    ?_, j, hj⟩
  · unfold rehashWith
    simp only [hlen, le_refl, if_true, List.take_length, replayBuckets_eq]
    exact hm'
  · intro k' hk'
    rw [hfind k' hk', find?_eq_firstValue_entries (WF_freshMap hpos) hk', entries_freshMap,
      find?_eq_firstValue_entries hwf hk']
    rfl

/-- Termination and functional behaviour of `put`, by induction on the fuel. -/
theorem put_spec : ∀ fuel : Nat, PutSpec fuel := by
  intro fuel
  induction fuel with
  | zero => intro map k v _ _ h; simp at h
  | succ fuel ih =>
    intro map k v hwf hk hfuel
    by_cases hs : SHOULD_MAP_EXPAND map.used_buckets map.bucket_count = true
    · obtain ⟨m1, hm1, hwf1, hused1, hperm1, hfind1, j, hj⟩ :=
        rehashWith_spec ih hwf GROWTH_FACTOR (by decide) (by omega)
      obtain ⟨m2, hm2, hwf2, hc2, hperm2, hfind2, hused2, -, -⟩ := putBucket_post hwf1 hk v
      refine ⟨m2, ?_, hwf2, ?_, ?_, fun _ => hused2 hused1, j + 1, ?_⟩
      · simp only [put, hs, if_true, hm1]; exact hm2
      · exact hperm2.trans (hperm1.append_right _)
      · intro k' hk'
        rw [hfind2 k' hk', hfind1 k' hk']
      · rw [hc2, hj, pow_succ]
        simp only [GROWTH_FACTOR]
        ring
    · obtain ⟨m2, hm2, hwf2, hc2, hperm2, hfind2, hused2, -, -⟩ := putBucket_post hwf hk v
      refine ⟨m2, ?_, hwf2, hperm2, hfind2, ?_, 0, by simp [hc2]⟩
      · simp only [put, hs]; exact hm2
      · rintro (hu | hu)
        · exact hused2 hu
        · exact absurd hu hs

theorem replayChain_mono {p p' : HashMap → Int → Int → Except Fault HashMap}
    (h : ∀ m k v r, p m k v = .ok r → p' m k v = .ok r) (l : List (Int × Int)) :
    ∀ acc r, replayChain p l acc = .ok r → replayChain p' l acc = .ok r := by
  induction l with
  | nil => intro acc r hr; exact hr
  | cons a l ih =>
    obtain ⟨k, v⟩ := a
    intro acc r hr
    simp only [replayChain] at hr ⊢
    cases hp : p acc k v with
    | error e => simp [hp] at hr
    | ok m =>
      rw [hp] at hr
      rw [h acc k v m hp]
      exact ih m r hr

theorem rehashWith_mono {p p' : HashMap → Int → Int → Except Fault HashMap}
    (h : ∀ m k v r, p m k v = .ok r → p' m k v = .ok r) (map : HashMap) (g : Int)
    (r : HashMap) (hr : rehashWith p map g = .ok r) : rehashWith p' map g = .ok r := by
  unfold rehashWith at hr ⊢
  split at hr
  · rename_i hle
    simp only [hle, if_true, replayBuckets_eq] at hr ⊢
    exact replayChain_mono h _ _ _ hr
  · simp at hr

/-- More fuel never changes a result of `put`. -/
theorem put_succ_fuel : ∀ (fuel : Nat) (map : HashMap) (k v : Int) (r : HashMap),
    put fuel map k v = .ok r → put (fuel + 1) map k v = .ok r := by
  intro fuel
  induction fuel with
  | zero => intro map k v r hr; simp [put] at hr
  | succ fuel ih =>
    intro map k v r hr
    rw [put] at hr ⊢
    by_cases hs : SHOULD_MAP_EXPAND map.used_buckets map.bucket_count = true
    · simp only [hs, if_true] at hr ⊢
      cases hre : rehashWith (put fuel) map GROWTH_FACTOR with
      | error e => simp [hre] at hr
      | ok m1 =>
        rw [hre] at hr
        rw [rehashWith_mono ih map GROWTH_FACTOR m1 hre]
        exact hr
    · simp only [hs] at hr ⊢
      exact hr

theorem put_mono {fuel fuel' : Nat} (hle : fuel ≤ fuel') {map : HashMap} {k v : Int}
    {r : HashMap} (hr : put fuel map k v = .ok r) : put fuel' map k v = .ok r := by
  induction hle with
  | refl => exact hr
  | step _ ih => exact put_succ_fuel _ _ _ _ _ ih

/-- The table `put` returns does not depend on the fuel. -/
theorem put_unique {fuel fuel' : Nat} {map : HashMap} {k v : Int} {r r' : HashMap}
    (hr : put fuel map k v = .ok r) (hr' : put fuel' map k v = .ok r') : r = r' := by
  have h1 := put_mono (Nat.le_max_left fuel fuel') hr
  have h2 := put_mono (Nat.le_max_right fuel fuel') hr'
  rw [h1] at h2
  exact Except.ok.inj h2

/-- On a well-formed table `put` returns, with any fuel above the number of stored entries,
one and the same table. -/
theorem put_total {map : HashMap} (hwf : WF map) {k : Int} (hk : 0 ≤ k) (v : Int) :
    ∃ map', (∀ fuel, (entries map).length < fuel → put fuel map k v = .ok map') ∧
      PutPost map k v map' := by
  obtain ⟨m', hm', post⟩ := put_spec ((entries map).length + 1) map k v hwf hk (by omega)
  exact ⟨m', fun fuel hf => put_mono (by omega) hm', post⟩

theorem put_post_of_ok {map : HashMap} (hwf : WF map) {k : Int} (hk : 0 ≤ k) {v : Int}
    {fuel : Nat} {map' : HashMap} (h : put fuel map k v = .ok map') : PutPost map k v map' := by
  obtain ⟨m0, hm0, post⟩ := put_total hwf hk v
  have := put_unique h (hm0 _ (Nat.lt_succ_self _))
  rw [this]; exact post

theorem WF_new_hashmap : WF new_hashmap := WF_freshMap (by decide)

theorem UsedOK_new_hashmap : UsedOK new_hashmap := UsedOK_freshMap _

/-- Reachable tables are well formed and their occupancy counter is exact. -/
theorem Reachable.inv {map : HashMap} (h : Reachable map) : WF map ∧ UsedOK map := by
  induction h with
  | new => exact ⟨WF_new_hashmap, UsedOK_new_hashmap⟩
  | put _ hk hput ih =>
    have post := put_post_of_ok ih.1 hk hput
    exact ⟨post.wf, post.used (Or.inl ih.2)⟩

/-- A sequence of puts with non-negative keys runs to completion; lookups in the final table see
the first put of each key, after whatever the initial table already held. -/
theorem putAll_spec (kvs : List (Int × Int)) :
    ∀ map : HashMap, WF map → (∀ p ∈ kvs, 0 ≤ p.1) →
    ∃ map', (∀ fuel, (entries map).length + kvs.length ≤ fuel →
        putAll fuel map kvs = .ok map') ∧
      WF map' ∧ (UsedOK map → UsedOK map') ∧
      (entries map').Perm (entries map ++ kvs) ∧
      (∀ k', 0 ≤ k' → find? map' k' = (find? map k').orElse (fun _ => firstValue kvs k')) ∧
      (Reachable map → Reachable map') := by
  induction kvs with
  | nil =>
    intro map hwf _
    refine ⟨map, fun _ _ => rfl, hwf, id, by simp, ?_, id⟩
    intro k' _
    cases find? map k' <;> rfl
  | cons a l ih =>
    obtain ⟨k, v⟩ := a
    intro map hwf hkeys
    have hk : 0 ≤ k := hkeys (k, v) (by simp)
    obtain ⟨m1, hm1, post⟩ := put_total hwf hk v
    have hlen : (entries m1).length = (entries map).length + 1 := by
      simpa using post.perm.length_eq
    obtain ⟨m2, hm2, hwf2, hused2, hperm2, hfind2, hreach2⟩ :=
      ih m1 post.wf (fun p hp => hkeys p (by simp [hp]))
    refine ⟨m2, ?_, hwf2, fun hu => hused2 (post.used (Or.inl hu)), ?_, ?_, ?_⟩
    · intro fuel hfuel
      simp only [List.length_cons] at hfuel
      simp only [putAll, hm1 fuel (by omega)]
      exact hm2 fuel (by omega)
    · refine hperm2.trans ?_
      have := post.perm.append_right l
      simpa using this
    · intro k' hk'
      rw [hfind2 k' hk', post.find k' hk']
      cases find? map k' <;> by_cases h : k = k' <;> simp [firstValue, h]
    · intro hr
      exact hreach2 (Reachable.put hr hk (hm1 _ (Nat.lt_succ_self _)))

theorem find?_freshMap {n : Int} (hn : 0 < n) {k : Int} (hk : 0 ≤ k) :
    find? (freshMap n) k = none := by
  rw [find?_eq_firstValue_entries (WF_freshMap hn) hk, entries_freshMap]; rfl

theorem putBucket_count {map : HashMap} {k v : Int} {r : HashMap}
    (h : putBucket map k v = .ok r) : r.bucket_count = map.bucket_count := by
  unfold putBucket at h
  split at h
  · simp at h
  · simp only at h
    split at h
    · simp at h
    · split at h <;> (simp only [Except.ok.injEq] at h; subst h; rfl)

theorem replayChain_count {p : HashMap → Int → Int → Except Fault HashMap}
    (hp : ∀ m k v r, p m k v = .ok r → ∃ j : Nat, r.bucket_count = m.bucket_count * 2 ^ j)
    (l : List (Int × Int)) :
    ∀ acc r, replayChain p l acc = .ok r →
      ∃ j : Nat, r.bucket_count = acc.bucket_count * 2 ^ j := by
  induction l with
  | nil =>
    intro acc r hr
    simp only [replayChain, Except.ok.injEq] at hr
    exact ⟨0, by simp [hr]⟩
  | cons a l ih =>
    obtain ⟨k, v⟩ := a
    intro acc r hr
    simp only [replayChain] at hr
    cases hm : p acc k v with
    | error e => simp [hm] at hr
    | ok m =>
      rw [hm] at hr
      obtain ⟨j1, hj1⟩ := hp acc k v m hm
      obtain ⟨j2, hj2⟩ := ih m r hr
      exact ⟨j1 + j2, by rw [hj2, hj1, pow_add, mul_assoc]⟩

theorem rehashWith_count {p : HashMap → Int → Int → Except Fault HashMap}
    (hp : ∀ m k v r, p m k v = .ok r → ∃ j : Nat, r.bucket_count = m.bucket_count * 2 ^ j)
    {map : HashMap} {g : Int} {r : HashMap} (hr : rehashWith p map g = .ok r) :
    ∃ j : Nat, r.bucket_count = map.bucket_count * g * 2 ^ j := by
  unfold rehashWith at hr
  split at hr
  · rw [replayBuckets_eq] at hr
    exact replayChain_count hp _ _ _ hr
  · simp at hr

/-- Whatever the table, a `put` that returns leaves `bucket_count` multiplied by a power of
two: by `2 ^ 0` when the load check fails, by at least `2 ^ 1` when it fires. -/
theorem put_count : ∀ (fuel : Nat) (map : HashMap) (k v : Int) (r : HashMap),
    put fuel map k v = .ok r →
    ∃ j : Nat, r.bucket_count = map.bucket_count * 2 ^ j ∧
      (SHOULD_MAP_EXPAND map.used_buckets map.bucket_count = true → 1 ≤ j) ∧
      (SHOULD_MAP_EXPAND map.used_buckets map.bucket_count = false → j = 0) := by
  intro fuel
  induction fuel with
  | zero => intro map k v r hr; simp [put] at hr
  | succ fuel ih =>
    intro map k v r hr
    rw [put] at hr
    by_cases hs : SHOULD_MAP_EXPAND map.used_buckets map.bucket_count = true
    · simp only [hs, if_true] at hr
      cases hre : rehashWith (put fuel) map GROWTH_FACTOR with
      | error e => simp [hre] at hr
      | ok m1 =>
        rw [hre] at hr
        obtain ⟨j, hj⟩ := rehashWith_count
          (fun m k v r h => (ih m k v r h).imp fun _ h => h.1) hre
        refine ⟨j + 1, ?_, fun _ => by omega, fun h => by simp [hs] at h⟩
        rw [putBucket_count hr, hj, pow_succ]
        simp only [GROWTH_FACTOR]
        ring
    · simp only [hs] at hr
      refine ⟨0, by simp [putBucket_count hr], fun h => absurd h hs, fun _ => rfl⟩

theorem SHOULD_MAP_EXPAND_iff {used total : Int} (h : 0 < total) :
    SHOULD_MAP_EXPAND used total = true ↔ 3 * total ≤ 4 * used := by
  simp [SHOULD_MAP_EXPAND, h]

/-- On a well-formed table `rehash` returns, with any fuel not below the number of stored
entries, one and the same table. -/
theorem rehash_total {map : HashMap} (hwf : WF map) (g : Int) (hg : 1 ≤ g) :
    ∃ map', (∀ fuel, (entries map).length ≤ fuel → rehash fuel map g = .ok map') ∧
      WF map' ∧ UsedOK map' ∧ (entries map').Perm (entries map) ∧
      (∀ k', 0 ≤ k' → find? map' k' = find? map k') ∧
      ∃ j : Nat, map'.bucket_count = map.bucket_count * g * 2 ^ j := by
  obtain ⟨m', hm', rest⟩ :=
    rehashWith_spec (put_spec (entries map).length) hwf g hg (le_refl _)
  refine ⟨m', fun fuel hf => ?_, rest⟩
  exact rehashWith_mono (fun m k v r h => put_mono hf h) map g m' hm'

theorem rehash_unique {fuel fuel' : Nat} {map : HashMap} {g : Int} {r r' : HashMap}
    (hr : rehash fuel map g = .ok r) (hr' : rehash fuel' map g = .ok r') : r = r' := by
  have h1 := rehashWith_mono
    (fun m k v r h => put_mono (Nat.le_max_left fuel fuel') h) map g r hr
  have h2 := rehashWith_mono
    (fun m k v r h => put_mono (Nat.le_max_right fuel fuel') h) map g r' hr'
  rw [h1] at h2
  exact Except.ok.inj h2

theorem firstValue_of_mem_nodup {l : List (Int × Int)} (hnd : (l.map Prod.fst).Nodup)
    {p : Int × Int} (hp : p ∈ l) : firstValue l p.1 = some p.2 := by
  induction l with
  | nil => simp at hp
  | cons a l ih =>
    obtain ⟨k, v⟩ := a
    simp only [List.map_cons, List.nodup_cons] at hnd
    rcases List.mem_cons.1 hp with rfl | hp'
    · simp [firstValue]
    · have hne : k ≠ p.1 := fun h => hnd.1 (h ▸ List.mem_map_of_mem Prod.fst hp')
      simp only [firstValue, hne, if_false]
      exact ih hnd.2 hp'

theorem firstValue_first (pre post : List (Int × Int)) (k v : Int)
    (hpre : ∀ p ∈ pre, p.1 ≠ k) : firstValue (pre ++ (k, v) :: post) k = some v := by
  rw [firstValue_append, firstValue_eq_none hpre]
  simp [firstValue]

/-- A sequence of puts from `new_hashmap()`: the final table exists and looks up the first put
of each key. -/
theorem putAll_new (kvs : List (Int × Int)) (hkeys : ∀ p ∈ kvs, 0 ≤ p.1) :
    ∃ map, (∀ fuel, kvs.length ≤ fuel → putAll fuel new_hashmap kvs = .ok map) ∧
      WF map ∧ UsedOK map ∧ Reachable map ∧ (entries map).Perm kvs ∧
      ∀ k, 0 ≤ k → get map k = .ok ((firstValue kvs k).getD NO_VALUE) := by
  obtain ⟨m, hm, hwf, hused, hperm, hfind, hreach⟩ := putAll_spec kvs new_hashmap WF_new_hashmap hkeys
  refine ⟨m, fun fuel hf => hm fuel ?_, hwf, hused UsedOK_new_hashmap, hreach Reachable.new,
    ?_, ?_⟩
  · simpa [new_hashmap_eq, entries_freshMap] using hf
  · simpa [new_hashmap_eq, entries_freshMap] using hperm
  · intro k hk
    rw [get_eq_find? hwf hk, hfind k hk, new_hashmap_eq, find?_freshMap (by decide) hk]
    rfl

theorem tableOf_spec (kvs : List (Int × Int)) (hkeys : ∀ p ∈ kvs, 0 ≤ p.1) :
    putAll kvs.length new_hashmap kvs = .ok (tableOf kvs) ∧ Reachable (tableOf kvs) := by
  obtain ⟨m, hm, -, -, hreach, -⟩ := putAll_new kvs hkeys
  have h := hm kvs.length (le_refl _)
  have : tableOf kvs = m := by simp [tableOf, h]
  rw [this]; exact ⟨h, hreach⟩

theorem put_of_expand {map m1 : HashMap}
    (hs : SHOULD_MAP_EXPAND map.used_buckets map.bucket_count = true) {fuel : Nat}
    (hm1 : rehashWith (put fuel) map GROWTH_FACTOR = .ok m1) (k v : Int) :
    put (fuel + 1) map k v = putBucket m1 k v := by
  rw [put]; simp [hs, hm1]

theorem put_of_not_expand {map : HashMap}
    (hs : SHOULD_MAP_EXPAND map.used_buckets map.bucket_count = false) (fuel : Nat)
    (k v : Int) : put (fuel + 1) map k v = putBucket map k v := by
  simp [put, hs]

theorem mainPuts_keys : ∀ p ∈ mainPuts, 0 ≤ p.1 := by
  intro p hp
  simp only [mainPuts, List.mem_map, List.mem_range] at hp
  obtain ⟨i, -, rfl⟩ := hp
  exact Int.natCast_nonneg i

theorem mainPuts_firstValue (i : Nat) (hi : i < 100) :
    firstValue mainPuts (i : Int) = some (2 * (i : Int)) := by
  have hnd : (mainPuts.map Prod.fst).Nodup := by
    have : mainPuts.map Prod.fst = (List.range 100).map (fun i : Nat => (i : Int)) := by
      simp [mainPuts, Function.comp_def]
    rw [this]
    exact (List.nodup_range 100).map (fun a b h => by exact_mod_cast h)
  have hmem : ((i : Int), 2 * (i : Int)) ∈ mainPuts := by
    simp only [mainPuts, List.mem_map, List.mem_range]
    exact ⟨i, hi, rfl⟩
  exact firstValue_of_mem_nodup hnd hmem

set_option maxRecDepth 100000 in
/-- Running the hundred puts of `main` with fuel 100: 160 slots, 100 of them used. -/
theorem mainPuts_counts : counts (putAll 100 new_hashmap mainPuts) = some (160, 100) := by
  decide

/-- C's `%` on a negative dividend: the remainder is the negated remainder of the absolute
value, so it is never positive. -/
theorem HASH_of_neg {k c : Int} (hk : k < 0) : HASH k c = -HASH (-k) c := by
  unfold HASH
  obtain ⟨n, rfl⟩ : ∃ n : Nat, k = Int.negSucc n := by
    cases k with
    | ofNat n => exact absurd hk (by simp)
    | negSucc n => exact ⟨n, rfl⟩
  cases c <;> rfl

theorem HASH_neg_iff {k : Int} (c : Int) (hk : k < 0) : HASH k c < 0 ↔ ¬ c ∣ k := by
  have h1 : HASH k c = -HASH (-k) c := HASH_of_neg hk
  have h2 : 0 ≤ HASH (-k) c := HASH_nonneg c (by omega)
  rw [Int.dvd_iff_tmod_eq_zero]
  show _ ↔ ¬ HASH k c = 0
  omega

theorem bucketAt_of_neg (map : HashMap) {i : Int} (hi : i < 0) : bucketAt map i = none := by
  simp [bucketAt, not_le.2 hi]

theorem putBucket_of_neg {map : HashMap} (hc : map.bucket_count ≠ 0) {k : Int}
    (hh : HASH k map.bucket_count < 0) (v : Int) :
    putBucket map k v = .error .outOfBounds := by
  simp [putBucket, hc, bucketAt_of_neg map hh]

/-- A key that is negative and not a multiple of the slot count is not a multiple of the slot
count after any number of doublings either. -/
theorem HASH_neg_of_mul {k c : Int} (hk : k < 0) (hnd : ¬ c ∣ k) (n : Int) :
    HASH k (c * n) < 0 :=
  (HASH_neg_iff (c * n) hk).2 (fun h => hnd (dvd_trans (dvd_mul_right c n) h))

theorem NoHidden_freshMap (n : Int) : NoHidden (freshMap n) := by
  intro b hb _
  simp only [freshMap, zeroedBuckets] at hb
  rw [(List.mem_replicate.1 hb).2]
  rfl

theorem putBucket_NoHidden {map : HashMap} {k v : Int} {r : HashMap}
    (h : putBucket map k v = .ok r) (hn : NoHidden map) : NoHidden r := by
  unfold putBucket at h
  split at h
  · simp at h
  · simp only at h
    split at h
    · simp at h
    · rename_i b hb
      split at h <;>
      · rename_i hkey
        simp only [Except.ok.injEq] at h
        subst h
        intro b' hb' hkey'
        rcases List.mem_or_eq_of_mem_set hb' with h1 | h1
        · exact hn b' h1 hkey'
        · subst h1
          first
            | rfl
            | exact absurd hkey' hkey

theorem replayChain_NoHidden {p : HashMap → Int → Int → Except Fault HashMap}
    (hp : ∀ m k v r, p m k v = .ok r → NoHidden m → NoHidden r) (l : List (Int × Int)) :
    ∀ acc r, replayChain p l acc = .ok r → NoHidden acc → NoHidden r := by
  induction l with
  | nil =>
    intro acc r hr hn
    simp only [replayChain, Except.ok.injEq] at hr
    exact hr ▸ hn
  | cons a l ih =>
    obtain ⟨k, v⟩ := a
    intro acc r hr hn
    simp only [replayChain] at hr
    cases hm : p acc k v with
    | error e => simp [hm] at hr
    | ok m =>
      rw [hm] at hr
      exact ih m r hr (hp acc k v m hm hn)

/-- Whatever the table, a `put` that returns keeps empty slots free of hidden chains. -/
theorem put_NoHidden : ∀ (fuel : Nat) (map : HashMap) (k v : Int) (r : HashMap),
    put fuel map k v = .ok r → NoHidden map → NoHidden r := by
  intro fuel
  induction fuel with
  | zero => intro map k v r hr; simp [put] at hr
  | succ fuel ih =>
    intro map k v r hr hn
    by_cases hs : SHOULD_MAP_EXPAND map.used_buckets map.bucket_count = true
    · cases hre : rehashWith (put fuel) map GROWTH_FACTOR with
      | error e => simp [put, hs, hre] at hr
      | ok m1 =>
        rw [put_of_expand hs hre] at hr
        refine putBucket_NoHidden hr ?_
        unfold rehashWith at hre
        split at hre
        · rw [replayBuckets_eq] at hre
          exact replayChain_NoHidden ih _ _ _ hre (NoHidden_freshMap _)
        · simp at hre
    · rw [Bool.not_eq_true] at hs
      rw [put_of_not_expand hs] at hr
      exact putBucket_NoHidden hr hn

theorem Reachable.noHidden {map : HashMap} (h : Reachable map) : NoHidden map := by
  induction h with
  | new => exact NoHidden_freshMap _
  | put _ _ hput ih => exact put_NoHidden _ _ _ _ _ hput ih

theorem storedIn_eq_chainOf {b : Bucket} (h : b.key = NO_VALUE → b.next = []) :
    storedIn b = chainOf b := by
  unfold storedIn chainOf
  by_cases hk : b.key = NO_VALUE
  · simp [hk, h hk]
  · simp [hk]

theorem allStored_eq_entries {map : HashMap} (hn : NoHidden map) :
    allStored map = entries map := by
  unfold allStored entries
  congr 1
  exact List.map_congr_left (fun b hb => storedIn_eq_chainOf (hn b hb))

/-- Well-formed tables without hidden chains satisfy the placement invariant. -/
theorem PlacementInv_of_WF {map : HashMap} (hwf : WF map) (hn : NoHidden map) :
    PlacementInv map := by
  intro i b hb
  have hmem : b ∈ map.buckets := List.mem_iff_getElem?.2 ⟨i, hb⟩
  rw [storedIn_eq_chainOf (hn b hmem)]
  refine ⟨?_, fun p hp => ?_⟩
  · rw [Ne, Ne, chainOf_eq_nil_iff]
  · obtain ⟨h0, h1⟩ := hwf.placed i b hb p hp
    refine ⟨h0, h1, ?_⟩
    rw [← h1]
    exact (Int.tmod_eq_emod h0 hwf.pos.le).symm

/-- The result of `rehash`, whatever fuel produced it. -/
theorem rehash_post_of_ok {map : HashMap} (hwf : WF map) {g : Int} (hg : 1 ≤ g) {fuel : Nat}
    {map' : HashMap} (h : rehash fuel map g = .ok map') :
    WF map' ∧ UsedOK map' ∧ NoHidden map' ∧ (entries map').Perm (entries map) := by
  obtain ⟨m0, hm0, hwf0, hused0, hperm0, -, -⟩ := rehash_total hwf g hg
  have heq := rehash_unique h (hm0 _ (le_refl _))
  subst heq
  refine ⟨hwf0, hused0, ?_, hperm0⟩
  unfold rehash rehashWith at h
  split at h
  · rw [replayBuckets_eq] at h
    exact replayChain_NoHidden (put_NoHidden fuel) _ _ _ h (NoHidden_freshMap _)
  · simp at h

theorem replayChain_ok_or_outOfFuel {p : HashMap → Int → Int → Except Fault HashMap}
    (hp : ∀ m k v, WF m → 0 ≤ k →
      (∃ r, p m k v = .ok r ∧ WF r) ∨ p m k v = .error .outOfFuel)
    (l : List (Int × Int)) :
    ∀ acc, WF acc → (∀ q ∈ l, 0 ≤ q.1) →
      (∃ r, replayChain p l acc = .ok r ∧ WF r) ∨
        replayChain p l acc = .error .outOfFuel := by
  induction l with
  | nil => intro acc hwf _; exact Or.inl ⟨acc, rfl, hwf⟩
  | cons a l ih =>
    obtain ⟨k, v⟩ := a
    intro acc hwf hkeys
    simp only [replayChain]
    rcases hp acc k v hwf (hkeys (k, v) (by simp)) with ⟨r, hr, hwfr⟩ | he
    · rw [hr]
      exact ih r hwfr (fun q hq => hkeys q (by simp [hq]))
    · rw [he]
      exact Or.inr rfl

/-- On a well-formed table and with a non-negative key, the only way `put` can fail is by
running out of fuel: no access leaves the bucket array and no `%` divides by zero, at any depth
of nesting. -/
theorem put_ok_or_outOfFuel : ∀ (fuel : Nat) (map : HashMap) (k v : Int), WF map → 0 ≤ k →
    (∃ r, put fuel map k v = .ok r ∧ WF r) ∨ put fuel map k v = .error .outOfFuel := by
  intro fuel
  induction fuel with
  | zero => intro map k v _ _; exact Or.inr rfl
  | succ fuel ih =>
    intro map k v hwf hk
    by_cases hs : SHOULD_MAP_EXPAND map.used_buckets map.bucket_count = true
    · have hlen : map.bucket_count.toNat = map.buckets.length := by
        have := hwf.size; omega
      have hre : rehashWith (put fuel) map GROWTH_FACTOR =
          replayChain (put fuel) (entries map) (freshMap (map.bucket_count * GROWTH_FACTOR)) := by
        unfold rehashWith
        simp only [hlen, le_refl, if_true, List.take_length, replayBuckets_eq]
        rfl
      have hpos : 0 < map.bucket_count * GROWTH_FACTOR :=
        Int.mul_pos hwf.pos (by decide)
      rcases replayChain_ok_or_outOfFuel ih (entries map) _ (WF_freshMap hpos)
        (fun q hq => hwf.key_nonneg hq) with ⟨m1, hm1, hwf1⟩ | he
      · rw [← hre] at hm1
        rw [put_of_expand hs hm1]
        obtain ⟨m2, hm2, hwf2, -⟩ := putBucket_post hwf1 hk v
        exact Or.inl ⟨m2, hm2, hwf2⟩
      · rw [← hre] at he
        right
        rw [put]
        simp [hs, he]
    · rw [Bool.not_eq_true] at hs
      rw [put_of_not_expand hs]
      obtain ⟨m2, hm2, hwf2, -⟩ := putBucket_post hwf hk v
      exact Or.inl ⟨m2, hm2, hwf2⟩

theorem slotsNeeded_perm {l₁ l₂ : List (Int × Int)} (h : l₁.Perm l₂) (n : Int) :
    slotsNeeded l₁ n = slotsNeeded l₂ n := by
  unfold slotsNeeded
  rw [List.toFinset_eq_of_perm _ _ (h.map _)]

theorem slotsNeeded_append_le (l₁ l₂ : List (Int × Int)) (n : Int) :
    slotsNeeded l₁ n ≤ slotsNeeded (l₁ ++ l₂) n := by
  unfold slotsNeeded
  apply Finset.card_le_card
  intro x hx
  simp only [List.mem_toFinset, List.mem_map, List.mem_append] at hx ⊢
  obtain ⟨p, hp, rfl⟩ := hx
  exact ⟨p, Or.inl hp, rfl⟩

theorem slotsNeeded_snoc_le (l : List (Int × Int)) (x : Int × Int) (n : Int) :
    slotsNeeded (l ++ [x]) n ≤ slotsNeeded l n + 1 := by
  unfold slotsNeeded
  rw [List.map_append, List.toFinset_append]
  refine (Finset.card_union_le _ _).trans ?_
  simp

/-- Doubling the number of slots at most doubles the number of slots needed. -/
theorem slotsNeeded_double_le (l : List (Int × Int)) {n : Int} (hn : 0 < n) :
    slotsNeeded l (2 * n) ≤ 2 * slotsNeeded l n := by
  unfold slotsNeeded
  set S := (l.map (fun p => p.1 % n)).toFinset with hS
  have hsub : (l.map (fun p => p.1 % (2 * n))).toFinset ⊆ S ∪ S.image (fun r => r + n) := by
    intro x hx
    simp only [List.mem_toFinset, List.mem_map] at hx
    obtain ⟨p, hp, rfl⟩ := hx
    have hmem : p.1 % n ∈ S := by
      simp only [hS, List.mem_toFinset, List.mem_map]
      exact ⟨p, hp, rfl⟩
    have h0 : 0 ≤ p.1 % (2 * n) := Int.emod_nonneg _ (by omega)
    have h1 : p.1 % (2 * n) < 2 * n := Int.emod_lt_of_pos _ (by omega)
    have h2 : p.1 % (2 * n) % n = p.1 % n := Int.emod_emod_of_dvd _ (dvd_mul_left n 2)
    by_cases hlt : p.1 % (2 * n) < n
    · rw [Int.emod_eq_of_lt h0 hlt] at h2
      rw [h2]
      exact Finset.mem_union_left _ hmem
    · have h3 : p.1 % (2 * n) % n = p.1 % (2 * n) - n := by
        have : p.1 % (2 * n) = (p.1 % (2 * n) - n) + n := by ring
        rw [this, Int.add_emod_self, Int.emod_eq_of_lt (by omega) (by omega)]
        ring
      apply Finset.mem_union_right
      rw [Finset.mem_image]
      exact ⟨p.1 % n, hmem, by rw [← h2, h3]; ring⟩
  calc ((l.map (fun p => p.1 % (2 * n))).toFinset).card
      ≤ (S ∪ S.image (fun r => r + n)).card := Finset.card_le_card hsub
    _ ≤ S.card + (S.image (fun r => r + n)).card := Finset.card_union_le _ _
    _ ≤ S.card + S.card := Nat.add_le_add_left Finset.card_image_le _
    _ = 2 * S.card := by ring

/-- In a list of buckets placed at the slots `s, s + 1, ...` the occupied buckets are as many
as the different slots their entries hash to. -/
theorem occupied_eq_card (c : Int) : ∀ (bs : List Bucket) (s : Nat),
    (∀ (i : Nat) (b : Bucket), bs[i]? = some b →
      ∀ p ∈ chainOf b, p.1 % c = ((s + i : Nat) : Int)) →
    ((((bs.map chainOf).flatten).map (fun p => p.1 % c)).toFinset).card = occupied bs ∧
      ∀ r ∈ (((bs.map chainOf).flatten).map (fun p => p.1 % c)).toFinset, (s : Int) ≤ r := by
  intro bs
  induction bs with
  | nil => intro s _; simp [occupied]
  | cons b bs ih =>
    intro s h
    have hb : ∀ p ∈ chainOf b, p.1 % c = (s : Int) := fun p hp => by
      simpa using h 0 b (by simp) p hp
    obtain ⟨ih1, ih2⟩ := ih (s + 1) (fun i b' hb' p hp => by
      have := h (i + 1) b' (by simpa using hb') p hp
      rw [this]; push_cast; ring)
    have hocc : occupied (b :: bs) = occupied bs + (if b.key = NO_VALUE then 0 else 1) := by
      unfold occupied
      by_cases he : b.key = NO_VALUE <;> simp [List.countP_cons, he]
    rw [hocc, List.map_cons, List.flatten_cons, List.map_append, List.toFinset_append]
    by_cases he : b.key = NO_VALUE
    · have : chainOf b = [] := (chainOf_eq_nil_iff b).2 he
      simp only [this, List.map_nil, List.toFinset_nil, Finset.empty_union, he, if_true,
        Nat.add_zero]
      exact ⟨ih1, fun r hr => by have := ih2 r hr; push_cast at this; omega⟩
    · have hne : chainOf b ≠ [] := fun h' => he ((chainOf_eq_nil_iff b).1 h')
      have hset : ((chainOf b).map (fun p => p.1 % c)).toFinset = {(s : Int)} := by
        ext x
        simp only [List.mem_toFinset, List.mem_map, Finset.mem_singleton]
        constructor
        · rintro ⟨p, hp, rfl⟩; exact hb p hp
        · rintro rfl
          obtain ⟨p, hp⟩ := List.exists_mem_of_ne_nil _ hne
          exact ⟨p, hp, hb p hp⟩
      have hnot : (s : Int) ∉ (((bs.map chainOf).flatten).map (fun p => p.1 % c)).toFinset :=
        fun hmem => by have := ih2 _ hmem; push_cast at this; omega
      simp only [hset, he, if_false]
      refine ⟨?_, fun r hr => ?_⟩
      · rw [← Finset.insert_eq, Finset.card_insert_of_not_mem hnot, ih1]
      · rcases Finset.mem_union.1 hr with h1 | h1
        · rw [Finset.mem_singleton.1 h1]
        · have := ih2 r h1; push_cast at this; omega

/-- In a well-formed table with an exact counter, `used_buckets` is the number of slots the
stored keys need. -/
theorem used_eq_slotsNeeded {map : HashMap} (hwf : WF map) (hu : UsedOK map) :
    map.used_buckets = (slotsNeeded (entries map) map.bucket_count : Int) := by
  have h := (occupied_eq_card map.bucket_count map.buckets 0 (fun i b hb p hp => by
    obtain ⟨h0, h1⟩ := hwf.placed i b hb p hp
    rw [Nat.zero_add, ← h1]
    exact (Int.tmod_eq_emod h0 hwf.pos.le).symm)).1
  unfold UsedOK at hu
  unfold slotsNeeded entries
  rw [hu, h]

/-- A replay whose entries, together with those already present, need fewer than three
quarters of the slots: no growth, the slot count stays. -/
theorem replay_no_growth_slots (fuel : Nat) (hfuel : 0 < fuel) (l : List (Int × Int)) :
    ∀ acc : HashMap, WF acc → UsedOK acc → (∀ p ∈ l, 0 ≤ p.1) →
      4 * (slotsNeeded (entries acc ++ l) acc.bucket_count : Int) < 3 * acc.bucket_count →
      ∃ map', replayChain (put fuel) l acc = .ok map' ∧ WF map' ∧ UsedOK map' ∧
        map'.bucket_count = acc.bucket_count ∧ (entries map').Perm (entries acc ++ l) := by
  induction l with
  | nil => intro acc hwf hu _ _; exact ⟨acc, rfl, hwf, hu, rfl, by simp⟩
  | cons a l ih =>
    obtain ⟨k, v⟩ := a
    intro acc hwf hused hkeys hload
    have hle : (slotsNeeded (entries acc) acc.bucket_count : Int) ≤
        slotsNeeded (entries acc ++ (k, v) :: l) acc.bucket_count := by
      exact_mod_cast slotsNeeded_append_le _ _ _
    have hs : SHOULD_MAP_EXPAND acc.used_buckets acc.bucket_count = false := by
      rw [← Bool.not_eq_true, SHOULD_MAP_EXPAND_iff hwf.pos, used_eq_slotsNeeded hwf hused]
      omega
    obtain ⟨m1, hm1, hwf1, hc1, hperm1, -, hused1, -, -⟩ :=
      putBucket_post hwf (hkeys (k, v) (by simp)) v
    have hperm : (entries m1 ++ l).Perm (entries acc ++ (k, v) :: l) := by
      have := hperm1.append_right l
      simpa using this
    obtain ⟨m2, hm2, hwf2, hu2, hc2, hperm2⟩ := ih m1 hwf1 (hused1 hused)
      (fun p hp => hkeys p (by simp [hp]))
      (by rw [hc1, slotsNeeded_perm hperm]; exact hload)
    refine ⟨m2, ?_, hwf2, hu2, hc2.trans hc1, hperm2.trans hperm⟩
    obtain ⟨f, rfl⟩ : ∃ f, fuel = f + 1 := ⟨fuel - 1, by omega⟩
    simp only [replayChain, put_of_not_expand hs, hm1]
    exact hm2

theorem LoadInv_freshMap {n : Int} (hn : 0 < n) (h4 : (4 : Int) ∣ n) : LoadInv (freshMap n) := by
  refine ⟨h4, ?_, ?_⟩
  · show 4 * (0 : Int) ≤ 3 * n
    omega
  · rw [entries_freshMap]
    show 4 * ((slotsNeeded [] (2 * n) : Nat) : Int) + 4 ≤ 6 * n
    simp only [slotsNeeded, List.map_nil, List.toFinset_nil, Finset.card_empty]
    push_cast
    omega

/-- `put` keeps the load invariant: from a table that satisfies it the replay of a growth
never grows again, so the pending insertion finds a slot free below three quarters. -/
theorem LoadInv_put {map : HashMap} (hwf : WF map) (hu : UsedOK map) (hl : LoadInv map)
    {k : Int} (hk : 0 ≤ k) {v : Int} {fuel : Nat} {map' : HashMap}
    (h : put fuel map k v = .ok map') : LoadInv map' := by
  obtain ⟨t, ht⟩ := hl.four
  have hpos := hwf.pos
  have hdouble : (slotsNeeded (entries map) (2 * map.bucket_count) : Int) ≤
      2 * slotsNeeded (entries map) map.bucket_count := by
    exact_mod_cast slotsNeeded_double_le (entries map) hpos
  by_cases hs : SHOULD_MAP_EXPAND map.used_buckets map.bucket_count = true
  · -- growth: the replay into twice as many slots does not grow again
    have hlen : map.bucket_count.toNat = map.buckets.length := by
      have := hwf.size; omega
    have hpos2 : 0 < map.bucket_count * GROWTH_FACTOR := Int.mul_pos hpos (by decide)
    have hc2 : map.bucket_count * GROWTH_FACTOR = 2 * map.bucket_count := by
      simp only [GROWTH_FACTOR]; ring
    obtain ⟨m1, hm1, hwf1, hu1, hc1, hperm1⟩ := replay_no_growth_slots 1 (by decide)
      (entries map) (freshMap (map.bucket_count * GROWTH_FACTOR)) (WF_freshMap hpos2)
      (UsedOK_freshMap _) (fun p hp => hwf.key_nonneg hp) (by
        rw [entries_freshMap, List.nil_append]
        show 4 * (slotsNeeded (entries map) (map.bucket_count * GROWTH_FACTOR) : Int) <
          3 * (map.bucket_count * GROWTH_FACTOR)
        rw [hc2]
        have := hl.next
        omega)
    rw [entries_freshMap, List.nil_append] at hperm1
    have hc1' : m1.bucket_count = 2 * map.bucket_count := by
      rw [hc1]; exact hc2
    have hre : rehashWith (put 1) map GROWTH_FACTOR = .ok m1 := by
      unfold rehashWith
      simp only [hlen, le_refl, if_true, List.take_length, replayBuckets_eq]
      exact hm1
    obtain ⟨m2, hm2, hwf2, hcount2, hperm2, -, hused2, -, hle2⟩ := putBucket_post hwf1 hk v
    have h2 : put 2 map k v = .ok m2 := by
      rw [put_of_expand hs hre]; exact hm2
    rw [put_unique h h2]
    have hu1' : m1.used_buckets = (slotsNeeded (entries map) (2 * map.bucket_count) : Int) := by
      rw [used_eq_slotsNeeded hwf1 hu1, hc1', slotsNeeded_perm hperm1]
    have hd1 : (slotsNeeded (entries m1) (2 * (2 * map.bucket_count)) : Int) ≤
        2 * slotsNeeded (entries map) (2 * map.bucket_count) := by
      rw [← slotsNeeded_perm hperm1 (2 * map.bucket_count)]
      exact_mod_cast slotsNeeded_double_le (entries m1) (by omega)
    have hsn : (slotsNeeded (entries m2) (2 * (2 * map.bucket_count)) : Int) ≤
        slotsNeeded (entries m1) (2 * (2 * map.bucket_count)) + 1 := by
      rw [slotsNeeded_perm hperm2]
      exact_mod_cast slotsNeeded_snoc_le _ _ _
    have hnext := hl.next
    refine ⟨?_, ?_, ?_⟩
    · rw [hcount2, hc1']
      exact Dvd.dvd.mul_left hl.four 2
    · rw [hcount2, hc1']
      omega
    · rw [hcount2, hc1']
      omega
  · -- no growth
    rw [Bool.not_eq_true] at hs
    have hs' : ¬ 3 * map.bucket_count ≤ 4 * map.used_buckets := by
      rw [← SHOULD_MAP_EXPAND_iff hpos, hs]; decide
    obtain ⟨m2, hm2, hwf2, hcount2, hperm2, -, hused2, -, hle2⟩ := putBucket_post hwf hk v
    have h1 : put 1 map k v = .ok m2 := by
      rw [put_of_not_expand hs]; exact hm2
    rw [put_unique h h1]
    have hsn : (slotsNeeded (entries m2) (2 * m2.bucket_count) : Int) ≤
        slotsNeeded (entries map) (2 * map.bucket_count) + 1 := by
      rw [hcount2, slotsNeeded_perm hperm2]
      exact_mod_cast slotsNeeded_snoc_le _ _ _
    have hused := used_eq_slotsNeeded hwf hu
    refine ⟨hcount2 ▸ hl.four, ?_, ?_⟩
    · rw [hcount2]; omega
    · rw [hcount2] at hsn ⊢
      omega

theorem LoadInv_replay {fuel : Nat} (l : List (Int × Int)) :
    ∀ acc r, WF acc → UsedOK acc → LoadInv acc → (∀ p ∈ l, 0 ≤ p.1) →
      replayChain (put fuel) l acc = .ok r → WF r ∧ UsedOK r ∧ LoadInv r := by
  induction l with
  | nil =>
    intro acc r hwf hu hl _ hr
    simp only [replayChain, Except.ok.injEq] at hr
    subst hr
    exact ⟨hwf, hu, hl⟩
  | cons a l ih =>
    obtain ⟨k, v⟩ := a
    intro acc r hwf hu hl hkeys hr
    simp only [replayChain] at hr
    have hk : 0 ≤ k := hkeys (k, v) (by simp)
    cases hm : put fuel acc k v with
    | error e => simp [hm] at hr
    | ok m =>
      rw [hm] at hr
      have post := put_post_of_ok hwf hk hm
      exact ih m r post.wf (post.used (Or.inl hu)) (LoadInv_put hwf hu hl hk hm)
        (fun p hp => hkeys p (by simp [hp])) hr

/-- The table `rehash(map, 2)` returns from a well-formed table with an even number of slots
uses at most three quarters of its slots. -/
theorem rehash_LoadInv {map : HashMap} (hwf : WF map) (h2 : (2 : Int) ∣ map.bucket_count)
    {fuel : Nat} {m1 : HashMap} (h : rehashWith (put fuel) map GROWTH_FACTOR = .ok m1) :
    WF m1 ∧ UsedOK m1 ∧ LoadInv m1 := by
  have hpos2 : 0 < map.bucket_count * GROWTH_FACTOR := Int.mul_pos hwf.pos (by decide)
  have h4 : (4 : Int) ∣ map.bucket_count * GROWTH_FACTOR := by
    obtain ⟨t, ht⟩ := h2
    exact ⟨t, by rw [ht]; simp only [GROWTH_FACTOR]; ring⟩
  unfold rehashWith at h
  split at h
  · rw [replayBuckets_eq] at h
    have hlen : map.bucket_count.toNat = map.buckets.length := by
      have := hwf.size; omega
    rw [hlen, List.take_length] at h
    exact LoadInv_replay (entries map) _ m1 (WF_freshMap hpos2) (UsedOK_freshMap _)
      (LoadInv_freshMap hpos2 h4) (fun p hp => hwf.key_nonneg hp) h
  · simp at h

/-- Reachable tables have an even number of slots and exceed three quarters of them by at most
one used slot. -/
theorem reachable_load {map : HashMap} (h : Reachable map) :
    (2 : Int) ∣ map.bucket_count ∧ 4 * map.used_buckets ≤ 3 * map.bucket_count + 4 := by
  induction h with
  | new => exact ⟨by decide, by decide⟩
  | @put map map' fuel k v hr hk hput ih =>
    have hwf := hr.inv.1
    obtain ⟨f, rfl⟩ : ∃ f, fuel = f + 1 := by
      cases fuel with
      | zero => simp [put] at hput
      | succ f => exact ⟨f, rfl⟩
    by_cases hs : SHOULD_MAP_EXPAND map.used_buckets map.bucket_count = true
    · cases hre : rehashWith (put f) map GROWTH_FACTOR with
      | error e => simp [put, hs, hre] at hput
      | ok m1 =>
        rw [put_of_expand hs hre] at hput
        obtain ⟨hwf1, -, hl1⟩ := rehash_LoadInv hwf ih.1 hre
        obtain ⟨m2, hm2, -, hc2, -, -, -, -, hle2⟩ := putBucket_post hwf1 hk v
        rw [hput] at hm2
        cases hm2
        have h4 := hl1.four
        have hload := hl1.load
        rw [hc2]
        exact ⟨dvd_trans (by decide) h4, by omega⟩
    · rw [Bool.not_eq_true] at hs
      have hs' : ¬ 3 * map.bucket_count ≤ 4 * map.used_buckets := by
        rw [← SHOULD_MAP_EXPAND_iff hwf.pos, hs]; decide
      rw [put_of_not_expand hs] at hput
      obtain ⟨m2, hm2, -, hc2, -, -, -, -, hle2⟩ := putBucket_post hwf hk v
      rw [hput] at hm2
      cases hm2
      rw [hc2]
      exact ⟨ih.1, by omega⟩

/-- A block of fewer bytes than a `Bucket` does not take the three writes of lines 121-123. -/
theorem newNode_small (usable : Nat → Nat) (h : Heap) (key value : Int)
    (hsmall : usable SIZEOF_POINTER < SIZEOF_BUCKET) :
    newNode usable h key value = .error .outOfBlock := by
  have h16 : ¬ OFFSET_NEXT + SIZEOF_POINTER ≤ usable SIZEOF_POINTER := by
    have : SIZEOF_BUCKET = OFFSET_NEXT + SIZEOF_POINTER := rfl
    omega
  by_cases h1 : OFFSET_KEY + SIZEOF_INT ≤ usable SIZEOF_POINTER
  · by_cases h2 : OFFSET_VALUE + SIZEOF_INT ≤ usable SIZEOF_POINTER
    · simp [newNode, alloc, writeNode, store, h1, h2, h16]
    · simp [newNode, alloc, writeNode, store, h1, h2]
  · simp [newNode, alloc, writeNode, store, h1]

/-- With node blocks of fewer bytes than a `Bucket`, a `put` into an occupied slot returns no
table, whatever the table, the key and the fuel; with no chain behind the slot head, the fault
is the write outside the new node. -/
theorem hput_occupied_small (usable : Nat → Nat)
    (hsmall : usable SIZEOF_POINTER < SIZEOF_BUCKET) (fuel : Nat) (h : Heap) (map : HeapMap)
    (key value : Int) (s : HeapBucket)
    (hload : SHOULD_MAP_EXPAND map.used_buckets map.bucket_count = false)
    (hs : readSlot h.mem map.buckets (HASH key map.bucket_count) = .ok s)
    (hocc : s.key ≠ NO_VALUE) :
    (∃ e, hput usable (fuel + 1) h map key value = .error e) ∧
    (map.bucket_count ≠ 0 → s.next = none →
      hput usable (fuel + 1) h map key value = .error .outOfBlock) := by
  have hp : hput usable (fuel + 1) h map key value = hputBucket usable fuel h map key value := by
    simp only [hput, hload]
    rfl
  rw [hp]
  constructor
  · unfold hputBucket
    split
    · exact ⟨_, rfl⟩
    · simp only [hs, hocc, if_false, newNode_small usable h key value hsmall]
      cases chainEnd fuel h.mem s.next with
      | error e => exact ⟨_, rfl⟩
      | ok c => exact ⟨_, rfl⟩
  · intro hc hnext
    unfold hputBucket
    simp only [hc, if_false, hs, hocc, hnext, chainEnd, newNode_small usable h key value hsmall]

/-- With node blocks of fewer bytes than a `Bucket`, the program
`new_hashmap(); put(1, 5); put(11, 6)` ends in the second put, at the write outside the new
node. -/
theorem build_chained_small (usable : Nat → Nat) (fuel : Nat)
    (hsmall : usable SIZEOF_POINTER < SIZEOF_BUCKET) :
    build usable (fuel + 1) [(1, 5), (11, 6)] = .error .outOfBlock := by
  unfold build
  simp only [hputAll]
  cases hfirst :
      hput usable (fuel + 1) (hnew_hashmap emptyHeap).1 (hnew_hashmap emptyHeap).2 1 5 with
  | error e => cases hfirst
  | ok r =>
    obtain ⟨h, m⟩ := r
    cases hfirst
    have key := fun h m hl hs =>
      (hput_occupied_small usable hsmall fuel h m 11 6 ⟨1, 5, none⟩ hl hs (by decide)).2
    dsimp only
    rw [key]
    · rfl
    · rfl
    · decide
    · rfl

/-- The read `bucket->next` of `free_hashmap` on a node block of fewer bytes than a `Bucket`
lies outside the block. -/
theorem freeChain_small (fuel : Nat) (h : Heap) (p size : Nat) (b : HeapBucket)
    (hp : h.mem p = some (.node size b)) (hsmall : size < SIZEOF_BUCKET) :
    freeChain (fuel + 1) h (some p) = .error .outOfBlock := by
  have h16 : ¬ OFFSET_NEXT + SIZEOF_POINTER ≤ size := by
    have : SIZEOF_BUCKET = OFFSET_NEXT + SIZEOF_POINTER := rfl
    omega
  simp only [freeChain, readNext, readNode, hp, h16, if_false]

/-! ## Properties of the specification -/

/-- C1. Round trip: after any finite sequence of `put` calls on `new_hashmap()` with
non-negative, pairwise distinct keys, the final table exists (whatever fuel at least the number
of puts is given) and `get` returns, for every `(k, v)` of the sequence, the value `v`; the
number of growths along the way is unconstrained. -/
theorem C1_round_trip (kvs : List (Int × Int)) (hkeys : ∀ p ∈ kvs, 0 ≤ p.1)
    (hnd : (kvs.map Prod.fst).Nodup) :
    ∃ map, (∀ fuel, kvs.length ≤ fuel → putAll fuel new_hashmap kvs = .ok map) ∧
      ∀ p ∈ kvs, get map p.1 = .ok p.2 := by
  obtain ⟨m, hm, -, -, -, -, hget⟩ := putAll_new kvs hkeys
  refine ⟨m, hm, fun p hp => ?_⟩
  rw [hget p.1 (hkeys p hp), firstValue_of_mem_nodup hnd hp]
  rfl

theorem C1_round_trip_witness :
    (∀ p ∈ roundTripPuts, 0 ≤ p.1) ∧ (roundTripPuts.map Prod.fst).Nodup ∧
    ∃ map, (∀ fuel, roundTripPuts.length ≤ fuel →
        putAll fuel new_hashmap roundTripPuts = .ok map) ∧
      ∀ p ∈ roundTripPuts, get map p.1 = .ok p.2 :=
  ⟨by decide, by decide, C1_round_trip roundTripPuts (by decide) (by decide)⟩

/-- C3. First-wins on duplicate keys: in any sequence of `put` calls on `new_hashmap()` with
non-negative keys, if `(k, v)` is the first put of key `k` (no earlier put has key `k`; later
ones may), then `get` on the final table with key `k` returns `v`, whatever growth happened
between or after the puts of `k`. -/
theorem C3_first_wins (pre post : List (Int × Int)) (k v : Int) (hk : 0 ≤ k)
    (hpre : ∀ p ∈ pre, 0 ≤ p.1 ∧ p.1 ≠ k) (hpost : ∀ p ∈ post, 0 ≤ p.1) :
    ∃ map, (∀ fuel, (pre ++ (k, v) :: post).length ≤ fuel →
        putAll fuel new_hashmap (pre ++ (k, v) :: post) = .ok map) ∧
      get map k = .ok v := by
  have hkeys : ∀ p ∈ pre ++ (k, v) :: post, 0 ≤ p.1 := by
    intro p hp
    rcases List.mem_append.1 hp with h | h
    · exact (hpre p h).1
    · rcases List.mem_cons.1 h with rfl | h
      · exact hk
      · exact hpost p h
  obtain ⟨m, hm, -, -, -, -, hget⟩ := putAll_new _ hkeys
  refine ⟨m, hm, ?_⟩
  rw [hget k hk, firstValue_first pre post k v (fun p hp => (hpre p hp).2)]
  rfl

theorem C3_first_wins_witness :
    (0 : Int) ≤ 5 ∧ (∀ p ∈ dupPre, 0 ≤ p.1 ∧ p.1 ≠ 5) ∧ (∀ p ∈ dupPost, 0 ≤ p.1) ∧
    ∃ map, (∀ fuel, (dupPre ++ (5, 50) :: dupPost).length ≤ fuel →
        putAll fuel new_hashmap (dupPre ++ (5, 50) :: dupPost) = .ok map) ∧
      get map 5 = .ok 50 :=
  ⟨by decide, by decide, by decide,
    C3_first_wins dupPre dupPost 5 50 (by decide) (by decide) (by decide)⟩

/-- C4. Miss returns the sentinel: `get` on `new_hashmap()` with a non-negative key returns
`NO_VALUE`, and so does `get` on the table built by any sequence of `put` calls with
non-negative keys, for a non-negative key that was never passed to `put`. -/
theorem C4_miss (kvs : List (Int × Int)) (k : Int) (hkeys : ∀ p ∈ kvs, 0 ≤ p.1) (hk : 0 ≤ k)
    (hnot : k ∉ kvs.map Prod.fst) :
    get new_hashmap k = .ok NO_VALUE ∧
    ∃ map, (∀ fuel, kvs.length ≤ fuel → putAll fuel new_hashmap kvs = .ok map) ∧
      get map k = .ok NO_VALUE := by
  constructor
  · rw [get_eq_find? WF_new_hashmap hk, new_hashmap_eq, find?_freshMap (by decide) hk]
    rfl
  · obtain ⟨m, hm, -, -, -, -, hget⟩ := putAll_new kvs hkeys
    refine ⟨m, hm, ?_⟩
    rw [hget k hk, firstValue_eq_none]
    · rfl
    · intro p hp h
      exact hnot (h ▸ List.mem_map_of_mem Prod.fst hp)

theorem C4_miss_witness :
    (∀ p ∈ roundTripPuts, 0 ≤ p.1) ∧ (0 : Int) ≤ 33 ∧ (33 : Int) ∉ roundTripPuts.map Prod.fst ∧
    get new_hashmap 33 = .ok NO_VALUE ∧
    ∃ map, (∀ fuel, roundTripPuts.length ≤ fuel →
        putAll fuel new_hashmap roundTripPuts = .ok map) ∧
      get map 33 = .ok NO_VALUE :=
  ⟨by decide, by decide, by decide, C4_miss roundTripPuts 33 (by decide) (by decide) (by decide)⟩

/-- C5. An insertion never disturbs other keys: on a reachable table `put` with a non-negative
key `k` returns a table (the same for every fuel above the number of stored entries), and `get`
on it with any other non-negative key `k'` returns what `get` returned before the put, whether
the put chained onto an occupied slot or triggered growth. -/
theorem C5_frame (map : HashMap) (hr : Reachable map) (k v k' : Int) (hk : 0 ≤ k)
    (hk' : 0 ≤ k') (hne : k' ≠ k) :
    ∃ map', (∀ fuel, (entries map).length < fuel → put fuel map k v = .ok map') ∧
      get map' k' = get map k' := by
  obtain ⟨m', hm', post⟩ := put_total hr.inv.1 hk v
  refine ⟨m', hm', ?_⟩
  rw [get_eq_find? post.wf hk', get_eq_find? hr.inv.1 hk', post.find k' hk']
  have : firstValue [(k, v)] k' = none := by simp [firstValue, hne.symm]
  rw [this]
  cases find? map k' <;> rfl

theorem C5_frame_witness :
    Reachable (tableOf nestedGrowthPuts) ∧ (0 : Int) ≤ 8 ∧ (0 : Int) ≤ 27 ∧ (27 : Int) ≠ 8 ∧
    ∃ map', (∀ fuel, (entries (tableOf nestedGrowthPuts)).length < fuel →
        put fuel (tableOf nestedGrowthPuts) 8 5 = .ok map') ∧
      get map' 27 = get (tableOf nestedGrowthPuts) 27 :=
  ⟨(tableOf_spec nestedGrowthPuts (by decide)).2, by decide, by decide, by decide,
    C5_frame (tableOf nestedGrowthPuts) (tableOf_spec nestedGrowthPuts (by decide)).2 8 5 27
      (by decide) (by decide) (by decide)⟩

/-- C6. Growth arithmetic: the hundred calls `put(i, 2 * i)`, `i = 0 .. 99`, on
`new_hashmap()` return a table (with any fuel from 100 on) that has `bucket_count == 160` and
`used_buckets == 100` and on which `get(i) == 2 * i` for every `i` in `0 .. 99`. -/
theorem C6_growth_arithmetic :
    ∃ map, (∀ fuel, 100 ≤ fuel → putAll fuel new_hashmap mainPuts = .ok map) ∧
      map.bucket_count = 160 ∧ map.used_buckets = 100 ∧
      ∀ i : Nat, i < 100 → get map (i : Int) = .ok (2 * (i : Int)) := by
  obtain ⟨m, hm, -, -, -, -, hget⟩ := putAll_new mainPuts mainPuts_keys
  have hlen : mainPuts.length = 100 := by simp [mainPuts]
  have hc := mainPuts_counts
  rw [hm 100 (by rw [hlen])] at hc
  simp only [counts, Option.some.injEq, Prod.mk.injEq] at hc
  refine ⟨m, fun fuel hf => hm fuel (by rw [hlen]; exact hf), hc.1, hc.2, fun i hi => ?_⟩
  rw [hget _ (Int.natCast_nonneg i), mainPuts_firstValue i hi]
  rfl

/-- C7. Occupancy counter invariant: in every reachable table `used_buckets` is the number of
slots whose head key is not `NO_VALUE` (chained entries are not counted), and the same holds
for the table returned by `rehash` on a reachable table, for any growth factor at least 1. -/
theorem C7_used_buckets (map : HashMap) (hr : Reachable map) :
    map.used_buckets = ((map.buckets.countP (fun b => decide (b.key ≠ NO_VALUE)) : Nat) : Int) ∧
    ∀ (g : Int) (fuel : Nat) (map' : HashMap), 1 ≤ g → rehash fuel map g = .ok map' →
      map'.used_buckets =
        ((map'.buckets.countP (fun b => decide (b.key ≠ NO_VALUE)) : Nat) : Int) := by
  refine ⟨hr.inv.2, fun g fuel m' hg hm' => ?_⟩
  obtain ⟨m0, hm0, -, hused, -⟩ := rehash_total hr.inv.1 g hg
  rw [rehash_unique hm' (hm0 _ (le_refl _))]
  exact hused

theorem C7_used_buckets_witness :
    Reachable (tableOf roundTripPuts) ∧
    (tableOf roundTripPuts).used_buckets =
      (((tableOf roundTripPuts).buckets.countP (fun b => decide (b.key ≠ NO_VALUE)) : Nat) : Int) ∧
    ∀ (g : Int) (fuel : Nat) (map' : HashMap), 1 ≤ g →
      rehash fuel (tableOf roundTripPuts) g = .ok map' →
      map'.used_buckets =
        ((map'.buckets.countP (fun b => decide (b.key ≠ NO_VALUE)) : Nat) : Int) :=
  ⟨(tableOf_spec roundTripPuts (by decide)).2,
    C7_used_buckets (tableOf roundTripPuts) (tableOf_spec roundTripPuts (by decide)).2⟩

/-- C10 (defect of the code). On the heap, `put` into an occupied slot asks `malloc` for
`sizeof(struct Bucket *)` = 8 bytes (line 120), less than the 16 bytes of a `Bucket`, and writes
`next_bucket->next` at bytes 8 to 15 of that block (line 123).  So whenever the block has fewer
than 16 usable bytes, as with blocks of exactly the size asked for, a `put` with no growth due
and a key whose slot is occupied returns no table, whatever the table, the key and the fuel.
The table built by `new_hashmap(); put(1, 5)` is such a table for the key 11 (`4 * 1 < 3 * 10`,
slot `11 % 10 = 1` holds key 1): `put(11, 6)` ends in the fault `outOfBlock` instead of
appending `(11, 6)` to the chain of slot 1.  Only with an allocator that pads the block to 16
bytes or more does the chain of slot 1 become the old chain with `(11, 6)` appended. -/
theorem C10_put_occupied_out_of_block :
    exactSize SIZEOF_POINTER < SIZEOF_BUCKET ∧
    (∀ (usable : Nat → Nat) (fuel : Nat) (h : Heap) (map : HeapMap) (key value : Int)
        (s : HeapBucket), usable SIZEOF_POINTER < SIZEOF_BUCKET →
      SHOULD_MAP_EXPAND map.used_buckets map.bucket_count = false →
      readSlot h.mem map.buckets (HASH key map.bucket_count) = .ok s → s.key ≠ NO_VALUE →
      ∃ e, hput usable (fuel + 1) h map key value = .error e) ∧
    (build exactSize 1 [(1, 5)]).toOption.bind (view 1) = some (tableOf [(1, 5)], []) ∧
    4 * (tableOf [(1, 5)]).used_buckets < 3 * (tableOf [(1, 5)]).bucket_count ∧
    (bucketAt (tableOf [(1, 5)]) (HASH 11 (tableOf [(1, 5)]).bucket_count)).map
      (fun b => (b.key, b.value, b.next)) = some (1, 5, []) ∧
    (∀ (usable : Nat → Nat) (fuel : Nat), usable SIZEOF_POINTER < SIZEOF_BUCKET →
      build usable (fuel + 1) [(1, 5), (11, 6)] = .error .outOfBlock) ∧
    (build paddedSize 1 [(1, 5), (11, 6)]).toOption.bind (view 1) =
      some (tableOf [(1, 5), (11, 6)], [2]) :=
  ⟨by decide,
    fun usable fuel h map key value s hsmall hload hs hocc =>
      (hput_occupied_small usable hsmall fuel h map key value s hload hs hocc).1,
    by decide, by decide, by decide,
    fun usable fuel hsmall => build_chained_small usable fuel hsmall, by decide⟩

/-- C12. In-bounds indexing: in every reachable table `bucket_count` is positive and is the
length of the bucket array, and for every non-negative key the index `HASH(key, bucket_count)`
lies in `[0, bucket_count)` and addresses a bucket of the array; `get` returns a value, and
`put`, with whatever fuel, either returns a table or runs out of fuel: it never indexes outside
the array and never takes a remainder by zero, inside nested growth included. -/
theorem C12_in_bounds (map : HashMap) (hr : Reachable map) (k : Int) (hk : 0 ≤ k) :
    0 < map.bucket_count ∧ (map.buckets.length : Int) = map.bucket_count ∧
    0 ≤ HASH k map.bucket_count ∧ HASH k map.bucket_count < map.bucket_count ∧
    (∃ b, bucketAt map (HASH k map.bucket_count) = some b) ∧
    (∃ r, get map k = .ok r) ∧
    ∀ (fuel : Nat) (v : Int),
      (∃ map', put fuel map k v = .ok map') ∨ put fuel map k v = .error .outOfFuel := by
  have hwf := hr.inv.1
  obtain ⟨b, -, hb⟩ := bucketAt_HASH hwf.pos hwf.size hk
  refine ⟨hwf.pos, hwf.size, HASH_nonneg _ hk, HASH_lt k hwf.pos, ⟨b, hb⟩,
    ⟨_, get_eq_find? hwf hk⟩, fun fuel v => ?_⟩
  rcases put_ok_or_outOfFuel fuel map k v hwf hk with ⟨r, hr', -⟩ | he
  · exact Or.inl ⟨r, hr'⟩
  · exact Or.inr he

theorem C12_in_bounds_witness :
    Reachable (tableOf nestedGrowthPuts) ∧ (0 : Int) ≤ 8 ∧
    0 < (tableOf nestedGrowthPuts).bucket_count ∧
    ((tableOf nestedGrowthPuts).buckets.length : Int) = (tableOf nestedGrowthPuts).bucket_count ∧
    0 ≤ HASH 8 (tableOf nestedGrowthPuts).bucket_count ∧
    HASH 8 (tableOf nestedGrowthPuts).bucket_count < (tableOf nestedGrowthPuts).bucket_count ∧
    (∃ b, bucketAt (tableOf nestedGrowthPuts)
      (HASH 8 (tableOf nestedGrowthPuts).bucket_count) = some b) ∧
    (∃ r, get (tableOf nestedGrowthPuts) 8 = .ok r) ∧
    ∀ (fuel : Nat) (v : Int),
      (∃ map', put fuel (tableOf nestedGrowthPuts) 8 v = .ok map') ∨
        put fuel (tableOf nestedGrowthPuts) 8 v = .error .outOfFuel :=
  ⟨(tableOf_spec nestedGrowthPuts (by decide)).2, by decide,
    C12_in_bounds (tableOf nestedGrowthPuts) (tableOf_spec nestedGrowthPuts (by decide)).2 8
      (by decide)⟩

/-- C13. Negative keys: with C's truncating remainder and `bucket_count > 0`, `HASH` of a
negative key that is not a multiple of `bucket_count` is negative, so on a table with that
`bucket_count` `get` addresses no slot of the array, `put` does the same when the load check
fails, and `put` never returns a table, growth or not.  The key `NO_VALUE` hashes to `-1`
when `bucket_count > 1`.  The index lies in `[0, bucket_count)` exactly for non-negative keys
and for negative multiples of `bucket_count`. -/
theorem C13_negative_keys (map : HashMap) (k : Int) (hpos : 0 < map.bucket_count)
    (hk : k < 0) (hnd : ¬ map.bucket_count ∣ k) :
    HASH k map.bucket_count < 0 ∧
    bucketAt map (HASH k map.bucket_count) = none ∧
    get map k = .error .outOfBounds ∧
    (∀ fuel v, SHOULD_MAP_EXPAND map.used_buckets map.bucket_count = false →
      put (fuel + 1) map k v = .error .outOfBounds) ∧
    (∀ fuel v map', put fuel map k v ≠ .ok map') ∧
    (1 < map.bucket_count → HASH NO_VALUE map.bucket_count = -1) ∧
    (∀ k' : Int, (0 ≤ HASH k' map.bucket_count ∧ HASH k' map.bucket_count < map.bucket_count) ↔
      (0 ≤ k' ∨ map.bucket_count ∣ k')) := by
  have hneg : HASH k map.bucket_count < 0 := (HASH_neg_iff _ hk).2 hnd
  refine ⟨hneg, bucketAt_of_neg map hneg, ?_, fun fuel v hs => ?_, fun fuel v m' hm' => ?_,
    fun h1 => ?_, fun k' => ?_⟩
  · simp [get, hpos.ne', bucketAt_of_neg map hneg]
  · rw [put_of_not_expand hs]
    exact putBucket_of_neg hpos.ne' hneg v
  · obtain ⟨f, rfl⟩ : ∃ f, fuel = f + 1 := by
      cases fuel with
      | zero => simp [put] at hm'
      | succ f => exact ⟨f, rfl⟩
    by_cases hs : SHOULD_MAP_EXPAND map.used_buckets map.bucket_count = true
    · cases hre : rehashWith (put f) map GROWTH_FACTOR with
      | error e => simp [put, hs, hre] at hm'
      | ok m1 =>
        rw [put_of_expand hs hre] at hm'
        obtain ⟨j, hj⟩ := rehashWith_count
          (fun m k v r h => (put_count f m k v r h).imp fun _ h => h.1) hre
        have hneg1 : HASH k m1.bucket_count < 0 := by
          rw [hj, mul_assoc]
          exact HASH_neg_of_mul hk hnd _
        have hc1 : m1.bucket_count ≠ 0 := by
          rw [hj]
          simp only [GROWTH_FACTOR]
          positivity
        rw [putBucket_of_neg hc1 hneg1] at hm'
        cases hm'
    · rw [Bool.not_eq_true] at hs
      rw [put_of_not_expand hs, putBucket_of_neg hpos.ne' hneg] at hm'
      cases hm'
  · rw [HASH_of_neg (by decide)]
    show -Int.tmod 1 map.bucket_count = -1
    rw [Int.tmod_eq_of_lt (by decide) h1]
  · constructor
    · intro h
      by_cases hk' : 0 ≤ k'
      · exact Or.inl hk'
      · right
        by_contra hnd'
        have := (HASH_neg_iff map.bucket_count (not_le.1 hk')).2 hnd'
        omega
    · rintro (hk' | hd)
      · exact ⟨HASH_nonneg _ hk', HASH_lt k' hpos⟩
      · have : HASH k' map.bucket_count = 0 := Int.tmod_eq_zero_of_dvd hd
        rw [this]; exact ⟨le_refl _, hpos⟩

theorem C13_negative_keys_witness :
    0 < new_hashmap.bucket_count ∧ (-13 : Int) < 0 ∧ ¬ new_hashmap.bucket_count ∣ (-13 : Int) ∧
    HASH (-13) new_hashmap.bucket_count < 0 ∧
    bucketAt new_hashmap (HASH (-13) new_hashmap.bucket_count) = none ∧
    get new_hashmap (-13) = .error .outOfBounds ∧
    (∀ fuel v, SHOULD_MAP_EXPAND new_hashmap.used_buckets new_hashmap.bucket_count = false →
      put (fuel + 1) new_hashmap (-13) v = .error .outOfBounds) ∧
    (∀ fuel v map', put fuel new_hashmap (-13) v ≠ .ok map') ∧
    (1 < new_hashmap.bucket_count → HASH NO_VALUE new_hashmap.bucket_count = -1) ∧
    (∀ k' : Int, (0 ≤ HASH k' new_hashmap.bucket_count ∧
        HASH k' new_hashmap.bucket_count < new_hashmap.bucket_count) ↔
      (0 ≤ k' ∨ new_hashmap.bucket_count ∣ k')) :=
  ⟨by decide, by decide, by decide,
    C13_negative_keys new_hashmap (-13) (by decide) (by decide) (by decide)⟩

/-- C15 (defect of the code). After `new_hashmap()` and the seventeen puts `leakPuts`, run with
an allocator that pads its blocks, the heap holds the reachable table `tableOf leakPuts` (40
slots, no chains), its bucket array at address 11, and eight more blocks, at the addresses 2 to
9: the chain nodes that `put` allocated while the table had 10 slots, which `rehash` (two of
them ran, releasing the arrays 10 and 1) did not release.  `free_hashmap` then releases the
array 11 and nothing else: the eight nodes stay allocated.  They are the nodes
`free_hashmap` does release, each once and before the array, when it runs before the growth,
after `nestedGrowthPuts`.  And a node block has the `sizeof(struct Bucket *)` = 8 bytes `put`
asks for: whenever the block has fewer than the 16 usable bytes of a `Bucket`, the read
`bucket->next` of `free_hashmap` lies outside the block, and no table with a chain is built in
the first place (the program `new_hashmap(); put(1, 5); put(11, 6); free_hashmap` ends in the
second put). -/
theorem C15_free_hashmap_leaves_nodes :
    Reachable (tableOf leakPuts) ∧
    (build paddedSize 20 leakPuts).toOption.bind (view 20) = some (tableOf leakPuts, []) ∧
    (build paddedSize 20 leakPuts).toOption.map (fun r => residue r.1) =
      some ⟨[2, 3, 4, 5, 6, 7, 8, 9], [11], [10, 1]⟩ ∧
    (buildAndFree paddedSize 20 leakPuts).toOption.map residue =
      some ⟨[2, 3, 4, 5, 6, 7, 8, 9], [], [10, 1, 11]⟩ ∧
    (build paddedSize 20 nestedGrowthPuts).toOption.bind (view 20) =
      some (tableOf nestedGrowthPuts, [2, 3, 4, 5, 6, 7, 8, 9]) ∧
    (buildAndFree paddedSize 20 nestedGrowthPuts).toOption.map residue =
      some ⟨[], [], [2, 3, 4, 5, 6, 7, 8, 9, 1]⟩ ∧
    exactSize SIZEOF_POINTER < SIZEOF_BUCKET ∧
    (∀ (fuel : Nat) (h : Heap) (p size : Nat) (b : HeapBucket),
      h.mem p = some (.node size b) → size < SIZEOF_BUCKET →
      freeChain (fuel + 1) h (some p) = .error .outOfBlock) ∧
    ∀ (usable : Nat → Nat) (fuel : Nat), usable SIZEOF_POINTER < SIZEOF_BUCKET →
      buildAndFree usable (fuel + 1) [(1, 5), (11, 6)] = .error .outOfBlock := by
  refine ⟨(tableOf_spec leakPuts (by decide)).2, by decide, by decide, by decide, by decide,
    by decide, by decide, freeChain_small, fun usable fuel hsmall => ?_⟩
  unfold buildAndFree
  rw [build_chained_small usable fuel hsmall]

/-- C16. Placement invariant: in every reachable table a slot stores something exactly when
its head key differs from `NO_VALUE`, and every entry stored in slot `i`, head or chained, has a
non-negative key with `key mod bucket_count == i`; the table `rehash` returns from a reachable
table, for a growth factor at least 1, satisfies the same with its own `bucket_count`. -/
theorem C16_placement (map : HashMap) (hr : Reachable map) :
    PlacementInv map ∧
    ∀ (g : Int) (fuel : Nat) (map' : HashMap), 1 ≤ g → rehash fuel map g = .ok map' →
      PlacementInv map' := by
  refine ⟨PlacementInv_of_WF hr.inv.1 hr.noHidden, fun g fuel m' hg hm' => ?_⟩
  obtain ⟨hwf', -, hn', -⟩ := rehash_post_of_ok hr.inv.1 hg hm'
  exact PlacementInv_of_WF hwf' hn'

theorem C16_placement_witness :
    Reachable (tableOf nestedGrowthPuts) ∧ PlacementInv (tableOf nestedGrowthPuts) ∧
    ∀ (g : Int) (fuel : Nat) (map' : HashMap), 1 ≤ g →
      rehash fuel (tableOf nestedGrowthPuts) g = .ok map' → PlacementInv map' :=
  ⟨(tableOf_spec nestedGrowthPuts (by decide)).2,
    C16_placement (tableOf nestedGrowthPuts) (tableOf_spec nestedGrowthPuts (by decide)).2⟩

/-- C17. No entry is lost or duplicated: after any finite sequence of `put` calls on
`new_hashmap()` with non-negative keys, the slot heads and chain nodes of the final table are,
as a multiset of `(key, value)` pairs, exactly the pairs passed to `put`, whatever growth
(nested growth included) happened on the way. -/
theorem C17_entries_preserved (kvs : List (Int × Int)) (hkeys : ∀ p ∈ kvs, 0 ≤ p.1) :
    ∃ map, (∀ fuel, kvs.length ≤ fuel → putAll fuel new_hashmap kvs = .ok map) ∧
      (allStored map).Perm kvs ∧
      (Multiset.ofList (allStored map) = Multiset.ofList kvs) := by
  obtain ⟨m, hm, -, -, hreach, hperm, -⟩ := putAll_new kvs hkeys
  have hperm' : (allStored m).Perm kvs := by
    rw [allStored_eq_entries hreach.noHidden]; exact hperm
  exact ⟨m, hm, hperm', Multiset.coe_eq_coe.2 hperm'⟩

theorem C17_entries_preserved_witness :
    (∀ p ∈ dupPre ++ (5, 50) :: dupPost, 0 ≤ p.1) ∧
    ∃ map, (∀ fuel, (dupPre ++ (5, 50) :: dupPost).length ≤ fuel →
        putAll fuel new_hashmap (dupPre ++ (5, 50) :: dupPost) = .ok map) ∧
      (allStored map).Perm (dupPre ++ (5, 50) :: dupPost) ∧
      (Multiset.ofList (allStored map) = Multiset.ofList (dupPre ++ (5, 50) :: dupPost)) :=
  ⟨by decide, C17_entries_preserved (dupPre ++ (5, 50) :: dupPost) (by decide)⟩

/-- C18. Load bound: every reachable table satisfies
`4 * used_buckets ≤ 3 * bucket_count + 4`, although `put` inserts after a growth without
checking the load again: the table that `rehash(map, 2)` returns from a reachable table uses at
most three quarters of its slots. -/
theorem C18_load_bound (map : HashMap) (hr : Reachable map) :
    4 * map.used_buckets ≤ 3 * map.bucket_count + 4 ∧
    ∀ (fuel : Nat) (map' : HashMap), rehash fuel map 2 = .ok map' →
      4 * map'.used_buckets ≤ 3 * map'.bucket_count := by
  refine ⟨(reachable_load hr).2, fun fuel m' hm' => ?_⟩
  exact (rehash_LoadInv hr.inv.1 (reachable_load hr).1 hm').2.2.load

theorem C18_load_bound_witness :
    Reachable (tableOf tightPuts) ∧
    (tableOf tightPuts).used_buckets = 16 ∧ (tableOf tightPuts).bucket_count = 20 ∧
    4 * (tableOf tightPuts).used_buckets ≤ 3 * (tableOf tightPuts).bucket_count + 4 ∧
    ∀ (fuel : Nat) (map' : HashMap), rehash fuel (tableOf tightPuts) 2 = .ok map' →
      4 * map'.used_buckets ≤ 3 * map'.bucket_count :=
  ⟨(tableOf_spec tightPuts (by decide)).2, by decide, by decide,
    C18_load_bound (tableOf tightPuts) (tableOf_spec tightPuts (by decide)).2⟩

end HashMapC
